import Mathlib

/-!
Verification development for the traffic-simulation / trust-fusion testbed.

The development shallowly embeds the three runtime components:

* `realtimetrafficserver.py` (Simulation Engine): vehicle groups, edge
  occupancy, dynamic travel time, spawn and per-tick position update.
* `sensor_server.py` (Sensor Process): the `GET_TRAFFIC` reply logic.
* `traffic_light_controller.py` (Trust Fusion Engine): peer z-score, trust
  update, priority-edge decision, evaluation-cycle bookkeeping.

Modelling conventions, used throughout:

* Python `dict`s become association lists (`List (κ × α)`) looked up with
  `alookup`; dict iteration order is the list order (CPython dicts iterate in
  insertion order).  Well-formed states have `Nodup` keys, mirroring dict key
  uniqueness.
* Python numbers (ints and floats) become `ℤ` / `ℚ`; exact rational arithmetic
  stands in for IEEE floats.
* `float('inf')` return values become `Option ℚ` with `none` for infinity.
* The float expression `2 ** x` (real exponent, in the congestion decay) has
  no exact rational value, so the simulation definitions are parametric in a
  function `pow2 : ℚ → ℚ` standing for `x ↦ 2 ** x`; every theorem proved here
  holds for all `pow2` (with monotonicity / positivity hypotheses where the
  statement needs them).  `pow2Floor` is a concrete computable stand-in used
  by witnesses.
* Sensor identifiers (dict keys) and edge labels (the `"u-v"` strings of the
  light-sensor map) are modelled as `ℕ`; the only operation the code performs
  on them is equality and (for edge labels) picking the least under a linear
  order, which `ℕ` supplies.
-/

namespace Dissertation

/-! ### Association-list primitives (the embedding of Python `dict`) -/

/-- First-match lookup in an association list (`d[k]` / `d.get(k)`). -/
def alookup {κ α : Type} [DecidableEq κ] (k : κ) : List (κ × α) → Option α
  | [] => none
  | p :: t => if p.1 = k then some p.2 else alookup k t

/-- `d.get(k, dflt)`. -/
def lookupD {κ α : Type} [DecidableEq κ] (m : List (κ × α)) (k : κ) (d : α) : α :=
  (alookup k m).getD d

/-- Update the value at key `k` in place (`d[k] = f d[k]`); no-op on a missing
key. -/
def aupdate {κ α : Type} [DecidableEq κ] (k : κ) (f : α → α) :
    List (κ × α) → List (κ × α) :=
  List.map fun p => if p.1 = k then (p.1, f p.2) else p

/-- Delete key `k` (`del d[k]`). -/
def aerase {κ α : Type} [DecidableEq κ] (k : κ) (l : List (κ × α)) : List (κ × α) :=
  l.filter fun p => p.1 ≠ k

/-- Keys of an association list. -/
def akeys {κ α : Type} (l : List (κ × α)) : List κ := l.map Prod.fst

section ALookupLemmas

variable {κ α : Type} [DecidableEq κ]

theorem alookup_append (k : κ) (l₁ l₂ : List (κ × α)) :
    alookup k (l₁ ++ l₂) = ((alookup k l₁).orElse fun _ => alookup k l₂) := by
  induction l₁ with
  | nil => simp [alookup]
  | cons p t ih =>
      by_cases h : p.1 = k <;> simp [alookup, h, ih]

theorem alookup_aupdate (k k' : κ) (f : α → α) (l : List (κ × α)) :
    alookup k (aupdate k' f l) =
      if k = k' then (alookup k l).map f else alookup k l := by
  induction l with
  | nil => simp [alookup, aupdate]
  | cons p t ih =>
      simp only [aupdate, List.map_cons] at ih ⊢
      by_cases hp : p.1 = k'
      · by_cases hpk : p.1 = k
        · have hkk : k = k' := hpk ▸ hp
          simp [alookup, hp, hpk, hkk]
        · have hkk : ¬ k = k' := fun hc => hpk (hc ▸ hp)
          have hkk' : ¬ k' = k := fun hc => hkk hc.symm
          simp [alookup, hp, hpk, hkk, hkk', ih]
      · by_cases hpk : p.1 = k
        · have hkk : ¬ k = k' := fun hc => hp (hc ▸ hpk)
          simp [alookup, hp, hpk, hkk]
        · simp [alookup, hp, hpk, ih]

theorem alookup_aerase (k k' : κ) (l : List (κ × α)) (h : k ≠ k') :
    alookup k (aerase k' l) = alookup k l := by
  induction l with
  | nil => simp [alookup, aerase]
  | cons p t ih =>
      by_cases hp : p.1 = k'
      · have hpk : p.1 ≠ k := fun hc => h (hc ▸ hp :)
        have : aerase k' (p :: t) = aerase k' t := by
          simp [aerase, List.filter_cons, hp]
        rw [this, ih]
        show _ = (if p.1 = k then some p.2 else alookup k t)
        rw [if_neg hpk]
      · have : aerase k' (p :: t) = p :: aerase k' t := by
          simp [aerase, List.filter_cons, hp]
        rw [this]
        show (if p.1 = k then some p.2 else alookup k (aerase k' t)) =
          (if p.1 = k then some p.2 else alookup k t)
        rw [ih]

theorem alookup_aerase_self (k : κ) (l : List (κ × α)) :
    alookup k (aerase k l) = none := by
  induction l with
  | nil => simp [alookup, aerase]
  | cons p t ih =>
      by_cases hp : p.1 = k
      · have : aerase k (p :: t) = aerase k t := by
          simp [aerase, List.filter_cons, hp]
        rw [this, ih]
      · have : aerase k (p :: t) = p :: aerase k t := by
          simp [aerase, List.filter_cons, hp]
        rw [this]
        show (if p.1 = k then some p.2 else alookup k (aerase k t)) = none
        rw [if_neg hp, ih]

theorem akeys_aupdate (k : κ) (f : α → α) (l : List (κ × α)) :
    akeys (aupdate k f l) = akeys l := by
  induction l with
  | nil => rfl
  | cons p t ih =>
      simp only [akeys, aupdate, List.map_cons] at ih ⊢
      by_cases hp : p.1 = k
      · rw [if_pos hp]
        exact congrArg (p.1 :: ·) ih
      · rw [if_neg hp]
        exact congrArg (p.1 :: ·) ih

theorem mem_aupdate {k : κ} {f : α → α} {l : List (κ × α)} {q : κ × α}
    (hq : q ∈ aupdate k f l) :
    (q.1 = k ∧ ∃ v, (k, v) ∈ l ∧ q.2 = f v) ∨ (q.1 ≠ k ∧ q ∈ l) := by
  rcases List.mem_map.mp hq with ⟨⟨a, b⟩, hp, hpq⟩
  by_cases h : a = k
  · subst h
    left
    simp only [if_pos rfl] at hpq
    rw [← hpq]
    exact ⟨rfl, b, hp, rfl⟩
  · right
    simp only [if_neg h] at hpq
    rw [← hpq]
    exact ⟨h, hp⟩

theorem mem_of_mem_aerase {k : κ} {l : List (κ × α)} {q : κ × α}
    (hq : q ∈ aerase k l) : q ∈ l ∧ q.1 ≠ k := by
  have := List.mem_filter.mp hq
  refine ⟨this.1, by simpa using this.2⟩

theorem alookup_eq_some_mem {k : κ} {v : α} {l : List (κ × α)}
    (h : alookup k l = some v) : (k, v) ∈ l := by
  induction l with
  | nil => simp [alookup] at h
  | cons p t ih =>
      rcases p with ⟨a, b⟩
      by_cases hp : a = k
      · subst hp
        simp [alookup] at h
        subst h
        exact List.mem_cons_self _ _
      · simp [alookup, hp] at h
        exact List.mem_cons_of_mem _ (ih h)

theorem mem_alookup_of_nodup {l : List (κ × α)} {k : κ} {v : α}
    (hnd : (akeys l).Nodup) (hm : (k, v) ∈ l) : alookup k l = some v := by
  induction l with
  | nil => simp at hm
  | cons p t ih =>
      simp only [akeys, List.map_cons, List.nodup_cons] at hnd
      rcases List.mem_cons.mp hm with h | h
      · subst h; simp [alookup]
      · have hpk : p.1 ≠ k := by
          intro hc
          exact hnd.1 (by simpa [hc] using List.mem_map_of_mem Prod.fst h)
        simp [alookup, hpk]
        exact ih hnd.2 h

end ALookupLemmas

/-! ### Sensor Process — `sensor_server.py`

`handle_light_connection` answers one request using a snapshot of the
background poller's cached state (`last_query_success`,
`current_ground_truth_traffic`, `current_priority_on_edge`) and the static
noisy flag.  The two random draws of the noisy path (`random.randint` for the
count noise, the `random.random() < 0.05` roll for false priority) enter as
explicit oracle arguments `noise` and `falseRoll`. -/

/-- `DEFAULT_NOISE_MAGNITUDE` in `sensor_server.py`. -/
def DEFAULT_NOISE_MAGNITUDE : ℤ := 5

/-- The `(traffic_to_report, priority_to_report)` pair computed by
`handle_light_connection` for a `GET_TRAFFIC` request (lines 227-248). -/
def sensorDecide (querySuccess : Bool) (trafficFromCentral : ℤ)
    (actualPriorityFromCentral : Bool) (noisy : Bool) (noise : ℤ)
    (falseRoll : Bool) : ℤ × Bool :=
  if querySuccess then
    let trafficToReport :=
      if noisy then max 0 (trafficFromCentral + noise) else trafficFromCentral
    let priorityToReport :=
      if noisy ∧ ¬ actualPriorityFromCentral ∧ falseRoll then true
      else actualPriorityFromCentral
    (trafficToReport, priorityToReport)
  else (-1, false)

/-- `f"TRAFFIC={t};PRIORITY={str(p).lower()}\n"`. -/
def formatReply (t : ℤ) (p : Bool) : String :=
  "TRAFFIC=" ++ toString t ++ ";PRIORITY=" ++ (if p then "true" else "false") ++ "\n"

/-- The full reply of `handle_light_connection` to one (already stripped)
request line. -/
def handle_light_connection (request : String) (querySuccess : Bool)
    (trafficFromCentral : ℤ) (actualPriorityFromCentral : Bool) (noisy : Bool)
    (noise : ℤ) (falseRoll : Bool) : String :=
  if request = "GET_TRAFFIC" then
    let r := sensorDecide querySuccess trafficFromCentral
      actualPriorityFromCentral noisy noise falseRoll
    formatReply r.1 r.2
  else "ERROR=UnknownRequest\n"

/-! ### Controller evaluation-cycle bookkeeping — `traffic_light_controller.py`

The `__main__` loop's counters `total_cycles_run`, `evaluated_cycles_count`
and `correct_decision_cycles_count` (lines 337, 374-415) form a small state
machine; each cycle's externally-determined data (whether the ground-truth
query returned data, and whether the decision matched it) enters as a pair of
oracle booleans. -/

/-- `SKIP_INITIAL_CYCLES_FOR_EVAL`. -/
def SKIP_INITIAL_CYCLES_FOR_EVAL : ℕ := 10

/-- `MAX_EVAL_CYCLES_FOR_REPORT`. -/
def MAX_EVAL_CYCLES_FOR_REPORT : ℕ := 30

/-- The controller's evaluation counters. -/
structure EvalCounters where
  totalCycles : ℕ
  evaluatedCycles : ℕ
  correctCycles : ℕ
  deriving DecidableEq, Repr

/-- One evaluation cycle of the `__main__` loop, restricted to the counters:
`total_cycles_run += 1`; then, if past the stabilization window and under the
report cap, query ground truth; if it answered (`gtAvailable`), count the
cycle and, when the decision matched (`decisionMatched`), count it correct. -/
def evalCycle (s : EvalCounters) (gtAvailable decisionMatched : Bool) : EvalCounters :=
  if s.totalCycles + 1 > SKIP_INITIAL_CYCLES_FOR_EVAL ∧
      s.evaluatedCycles < MAX_EVAL_CYCLES_FOR_REPORT ∧ gtAvailable then
    { totalCycles := s.totalCycles + 1
      evaluatedCycles := s.evaluatedCycles + 1
      correctCycles := s.correctCycles + (if decisionMatched then 1 else 0) }
  else { s with totalCycles := s.totalCycles + 1 }

/-- The counters after a run of evaluation cycles, starting from the zero
state the process boots with. -/
def runEvalCycles (cycles : List (Bool × Bool)) : EvalCounters :=
  cycles.foldl (fun s c => evalCycle s c.1 c.2) ⟨0, 0, 0⟩

/-- The `success_ratio` computed by `write_performance_report` (0.0 when no
cycle was evaluated, else correct/evaluated). -/
def reportSuccessRatio (s : EvalCounters) : ℚ :=
  if s.evaluatedCycles > 0 then (s.correctCycles : ℚ) / s.evaluatedCycles else 0

/-! ### Dynamic travel time — `realtimetrafficserver.py` -/

/-- Static data of one road-graph edge (`speed_limit`, `capacity`,
`distance`). -/
structure EdgeData where
  speed_limit : ℚ
  capacity : ℚ
  distance : ℚ
  deriving DecidableEq, Repr

/-- The `effective_speed` computed inside
`calculate_dynamic_travel_time_local` (line 114), parametric in
`pow2 = fun x => 2 ** x`. -/
def effectiveSpeed (pow2 : ℚ → ℚ) (ed : EdgeData) (currentTotalCars : ℚ) : ℚ :=
  let congestionFactor := min 1 (currentTotalCars / ed.capacity)
  if congestionFactor ≤ 1/10 then ed.speed_limit
  else max 1 (ed.speed_limit / pow2 (congestionFactor * 3))

/-- `calculate_dynamic_travel_time_local` (lines 108-116); `none` is the
`float('inf')` of the Python code. -/
def calculate_dynamic_travel_time_local (pow2 : ℚ → ℚ) (ed : EdgeData)
    (currentTotalCars : ℚ) : Option ℚ :=
  if ed.capacity ≤ 0 then none
  else
    let es := effectiveSpeed pow2 ed currentTotalCars
    if es ≤ 0 then none
    else some (ed.distance / es * 60)

/-- Concrete computable stand-in for `x ↦ 2 ** x`: `2 ^ ⌊x⌋`.  Used only to
instantiate witnesses; the theorems are parametric in `pow2`. -/
def pow2Floor (x : ℚ) : ℚ := 2 ^ ⌊x⌋

theorem pow2Floor_pos (x : ℚ) : 0 < pow2Floor x :=
  zpow_pos (by norm_num) _

theorem pow2Floor_monotone : Monotone pow2Floor := fun a b hab =>
  zpow_le_zpow_right₀ (by norm_num) (Int.floor_le_floor hab)

/-! ### Claim C6 -/

/-- C6: while the sensor's last background query failed, a `GET_TRAFFIC`
request is answered with the exact sentinel line `TRAFFIC=-1;PRIORITY=false`
regardless of the cached reading (so never with stale data), and any other
request is answered `ERROR=UnknownRequest`. -/
theorem C6_failed_query_sentinel (traffic : ℤ) (prio noisy : Bool) (noise : ℤ)
    (falseRoll : Bool) (request : String) :
    handle_light_connection "GET_TRAFFIC" false traffic prio noisy noise falseRoll =
      "TRAFFIC=-1;PRIORITY=false\n" ∧
    (request ≠ "GET_TRAFFIC" →
      ∀ querySuccess : Bool,
        handle_light_connection request querySuccess traffic prio noisy noise falseRoll =
          "ERROR=UnknownRequest\n") := by
  constructor
  · rfl
  · intro hreq querySuccess
    simp [handle_light_connection, hreq]

/-- Witness for C6 at a concrete state and request. -/
theorem C6_failed_query_sentinel_witness :
    handle_light_connection "GET_TRAFFIC" false 7 true true 3 true =
      "TRAFFIC=-1;PRIORITY=false\n" ∧
    handle_light_connection "STATUS" false 7 true true 3 true =
      "ERROR=UnknownRequest\n" :=
  ⟨(C6_failed_query_sentinel 7 true true 3 true "STATUS").1,
   (C6_failed_query_sentinel 7 true true 3 true "STATUS").2 (by decide) false⟩

/-! ### Claim C8 -/

/-- C8: when the last background query succeeded and the ground truth carried
`priority=true`, the reported priority is `true` whatever the noisy flag and
the random draws: noise can only add a false priority, never suppress a true
one. -/
theorem C8_priority_never_suppressed (traffic : ℤ) (noisy : Bool) (noise : ℤ)
    (falseRoll : Bool) :
    (sensorDecide true traffic true noisy noise falseRoll).2 = true ∧
    handle_light_connection "GET_TRAFFIC" true traffic true noisy noise falseRoll =
      formatReply (sensorDecide true traffic true noisy noise falseRoll).1 true := by
  constructor
  · simp [sensorDecide]
  · simp [handle_light_connection, sensorDecide]

/-! ### Claim C10 -/

/-- The counter invariant maintained across evaluation cycles. -/
def CountersInv (s : EvalCounters) : Prop :=
  s.correctCycles ≤ s.evaluatedCycles ∧
  s.evaluatedCycles ≤ MAX_EVAL_CYCLES_FOR_REPORT ∧
  (0 < s.evaluatedCycles → SKIP_INITIAL_CYCLES_FOR_EVAL < s.totalCycles)

theorem evalCycle_preserves_inv (s : EvalCounters) (g d : Bool)
    (h : CountersInv s) : CountersInv (evalCycle s g d) := by
  obtain ⟨h1, h2, h3⟩ := h
  unfold evalCycle
  by_cases hcond : s.totalCycles + 1 > SKIP_INITIAL_CYCLES_FOR_EVAL ∧
      s.evaluatedCycles < MAX_EVAL_CYCLES_FOR_REPORT ∧ g = true
  · rw [if_pos hcond]
    refine ⟨?_, hcond.2.1, fun _ => hcond.1⟩
    show s.correctCycles + (if d then 1 else 0) ≤ s.evaluatedCycles + 1
    cases d
    · simpa using Nat.le_succ_of_le h1
    · simpa using Nat.succ_le_succ h1
  · rw [if_neg hcond]
    exact ⟨h1, h2, fun he => Nat.lt_succ_of_lt (h3 he)⟩

theorem runEvalCycles_inv (cycles : List (Bool × Bool)) :
    CountersInv (runEvalCycles cycles) := by
  unfold runEvalCycles
  have : ∀ (l : List (Bool × Bool)) (s : EvalCounters), CountersInv s →
      CountersInv (l.foldl (fun s c => evalCycle s c.1 c.2) s) := by
    intro l
    induction l with
    | nil => exact fun s h => h
    | cons c t ih => exact fun s h => ih _ (evalCycle_preserves_inv s c.1 c.2 h)
  refine this cycles ⟨0, 0, 0⟩ ⟨Nat.le_refl 0, by norm_num [MAX_EVAL_CYCLES_FOR_REPORT], ?_⟩
  intro h
  exact absurd h (by norm_num)

/-- C10: over any run of the controller's evaluation loop,
`correct_decision_cycles_count ≤ evaluated_cycles_count ≤ 30`; a cycle is
evaluated only once `total_cycles_run` has passed the first
`SKIP_INITIAL_CYCLES_FOR_EVAL = 10` cycles; and the `success_ratio` in the
performance report lies in `[0, 1]`. -/
theorem C10_counter_bounds (cycles : List (Bool × Bool)) :
    (runEvalCycles cycles).correctCycles ≤ (runEvalCycles cycles).evaluatedCycles ∧
    (runEvalCycles cycles).evaluatedCycles ≤ MAX_EVAL_CYCLES_FOR_REPORT ∧
    ((runEvalCycles cycles).evaluatedCycles = 0 ∨
      SKIP_INITIAL_CYCLES_FOR_EVAL < (runEvalCycles cycles).totalCycles) ∧
    0 ≤ reportSuccessRatio (runEvalCycles cycles) ∧
    reportSuccessRatio (runEvalCycles cycles) ≤ 1 := by
  obtain ⟨h1, h2, h3⟩ := runEvalCycles_inv cycles
  set s := runEvalCycles cycles with hs
  refine ⟨h1, h2, ?_, ?_, ?_⟩
  · rcases Nat.eq_zero_or_pos s.evaluatedCycles with h | h
    · exact Or.inl h
    · exact Or.inr (h3 h)
  · unfold reportSuccessRatio
    split
    · positivity
    · exact le_refl 0
  · unfold reportSuccessRatio
    split
    · next hpos =>
        apply div_le_one_of_le₀
        · exact_mod_cast h1
        · positivity
    · exact zero_le_one

/-! ### Claim C3 -/

/-- C3 counterexample: at speed limit 60, capacity 50, distance 1 and zero
occupancy (free flow), the code returns a travel time of `1` — which is
`distance / effective_speed * 60`, not the claimed `distance /
effective_speed = 1/60`. -/
theorem C3_counterexample :
    calculate_dynamic_travel_time_local pow2Floor ⟨60, 50, 1⟩ 0 ≠
      some (EdgeData.distance ⟨60, 50, 1⟩ / effectiveSpeed pow2Floor ⟨60, 50, 1⟩ 0) ∧
    calculate_dynamic_travel_time_local pow2Floor ⟨60, 50, 1⟩ 0 =
      some (EdgeData.distance ⟨60, 50, 1⟩ / effectiveSpeed pow2Floor ⟨60, 50, 1⟩ 0 * 60) := by
  have hes : effectiveSpeed pow2Floor ⟨60, 50, 1⟩ 0 = 60 := by
    unfold effectiveSpeed
    norm_num
  have hc : calculate_dynamic_travel_time_local pow2Floor ⟨60, 50, 1⟩ 0 = some 1 := by
    unfold calculate_dynamic_travel_time_local
    rw [if_neg (by norm_num)]
    rw [show effectiveSpeed pow2Floor ⟨60, 50, 1⟩ 0 = 60 from hes]
    norm_num
  rw [hc, hes]
  norm_num

/-- C3 (amended): for positive capacity, occupancy at most 10% of capacity
gives exactly the speed limit; above 10% the effective speed is the
geometrically decayed `max 1 (speed_limit / 2^(3·min 1 (occ/cap)))`, strictly
positive, and antitone in the occupancy (for monotone positive `pow2`); and
the returned travel time is `distance / effective_speed * 60` (the `* 60`
being the code's minutes conversion, absent from the original claim). -/
theorem C3_travel_time_amended (pow2 : ℚ → ℚ) (ed : EdgeData) (cars cars' : ℚ)
    (hcap : 0 < ed.capacity) :
    (cars ≤ ed.capacity / 10 → effectiveSpeed pow2 ed cars = ed.speed_limit) ∧
    (ed.capacity / 10 < cars →
      effectiveSpeed pow2 ed cars =
        max 1 (ed.speed_limit / pow2 (min 1 (cars / ed.capacity) * 3)) ∧
      0 < effectiveSpeed pow2 ed cars) ∧
    (Monotone pow2 → (∀ x, 0 < pow2 x) → ed.capacity / 10 < cars → cars ≤ cars' →
      effectiveSpeed pow2 ed cars' ≤ effectiveSpeed pow2 ed cars) ∧
    (0 < effectiveSpeed pow2 ed cars →
      calculate_dynamic_travel_time_local pow2 ed cars =
        some (ed.distance / effectiveSpeed pow2 ed cars * 60)) := by
  have hratio : ∀ c : ℚ, ed.capacity / 10 < c → 1/10 < min 1 (c / ed.capacity) := by
    intro c hc
    have h1 : (1:ℚ)/10 < c / ed.capacity := by
      rw [lt_div_iff₀ hcap]
      linarith [hc]
    exact lt_min (by norm_num) h1
  refine ⟨?_, ?_, ?_, ?_⟩
  · intro hle
    have h1 : cars / ed.capacity ≤ 1/10 := by
      rw [div_le_iff₀ hcap]
      linarith [hle]
    have h2 : min 1 (cars / ed.capacity) ≤ 1/10 := le_trans (min_le_right _ _) h1
    unfold effectiveSpeed
    rw [if_pos h2]
  · intro hgt
    have h2 : ¬ min 1 (cars / ed.capacity) ≤ 1/10 := not_le.mpr (hratio cars hgt)
    constructor
    · unfold effectiveSpeed
      rw [if_neg h2]
    · unfold effectiveSpeed
      rw [if_neg h2]
      exact lt_of_lt_of_le zero_lt_one (le_max_left _ _)
  · intro hmono hpos hgt hle
    have hgt' : ed.capacity / 10 < cars' := lt_of_lt_of_le hgt hle
    have h2 : ¬ min 1 (cars / ed.capacity) ≤ 1/10 := not_le.mpr (hratio cars hgt)
    have h2' : ¬ min 1 (cars' / ed.capacity) ≤ 1/10 := not_le.mpr (hratio cars' hgt')
    unfold effectiveSpeed
    rw [if_neg h2, if_neg h2']
    have hcc : min 1 (cars / ed.capacity) * 3 ≤ min 1 (cars' / ed.capacity) * 3 := by
      have : cars / ed.capacity ≤ cars' / ed.capacity := by gcongr
      have := min_le_min (le_refl (1:ℚ)) this
      linarith [this]
    rcases le_or_lt ed.speed_limit 0 with hv | hv
    · have ha : ed.speed_limit / pow2 (min 1 (cars' / ed.capacity) * 3) ≤ 1 := by
        have : ed.speed_limit / pow2 (min 1 (cars' / ed.capacity) * 3) ≤ 0 :=
          div_nonpos_of_nonpos_of_nonneg hv
            (le_of_lt (hpos (min 1 (cars' / ed.capacity) * 3)))
        linarith [this]
      have hb : ed.speed_limit / pow2 (min 1 (cars / ed.capacity) * 3) ≤ 1 := by
        have : ed.speed_limit / pow2 (min 1 (cars / ed.capacity) * 3) ≤ 0 :=
          div_nonpos_of_nonpos_of_nonneg hv
            (le_of_lt (hpos (min 1 (cars / ed.capacity) * 3)))
        linarith [this]
      rw [max_eq_left ha, max_eq_left hb]
    · have hdiv : ed.speed_limit / pow2 (min 1 (cars' / ed.capacity) * 3) ≤
          ed.speed_limit / pow2 (min 1 (cars / ed.capacity) * 3) := by
        apply div_le_div_of_nonneg_left (le_of_lt hv) (hpos _)
        exact hmono hcc
      exact max_le_max (le_refl 1) hdiv
  · intro hes
    unfold calculate_dynamic_travel_time_local
    rw [if_neg (not_le.mpr hcap), if_neg (not_le.mpr hes)]

/-- Witness for C3 (amended) at concrete inputs. -/
theorem C3_travel_time_amended_witness :
    (0:ℚ) < 50 ∧ effectiveSpeed pow2Floor ⟨60, 50, 1⟩ 0 = 60 ∧
    calculate_dynamic_travel_time_local pow2Floor ⟨60, 50, 1⟩ 0 = some 1 := by
  have h := C3_travel_time_amended pow2Floor ⟨60, 50, 1⟩ 0 0 (by norm_num)
  have hes : effectiveSpeed pow2Floor ⟨60, 50, 1⟩ 0 = 60 := h.1 (by norm_num)
  refine ⟨by norm_num, hes, ?_⟩
  have ht := h.2.2.2 (by rw [hes]; norm_num)
  rw [hes] at ht
  rw [ht]
  norm_num

/-! ### Trust update — `traffic_light_controller.py`, `update_trust_scores`

The controller keeps per-sensor maps keyed by sensor IP.  For the per-sensor
computations below the relevant maps are merged into one record per sensor
(key uniqueness of the Python dicts makes this lossless); the readings passed
in are the results of `query_sensor_raw` (`None` on timeout / socket error /
malformed reply).  The scikit-fuzzy inference (`trust_simulation_instance`)
enters as an oracle argument: `some out` when `compute()` succeeds and
produces `trust_update_output = out`, `none` when it raises or fires no rule
(both branches of the code apply the same `TRUST_DECAY_FUZZY_ERROR`
penalty). -/

/-- `TRUST_UPDATE_ALPHA`. -/
def TRUST_UPDATE_ALPHA : ℚ := 3/10

/-- `TRUST_DECAY_FAILURE`. -/
def TRUST_DECAY_FAILURE : ℚ := 5

/-- `TRUST_DECAY_IMPLAUSIBLE`. -/
def TRUST_DECAY_IMPLAUSIBLE : ℚ := 3

/-- `TRUST_DECAY_FUZZY_ERROR`. -/
def TRUST_DECAY_FUZZY_ERROR : ℚ := 4

/-- `TRUST_FLOOR`. -/
def TRUST_FLOOR : ℚ := 10

/-- `TRUST_CEILING`. -/
def TRUST_CEILING : ℚ := 100

/-- `PRIORITY_SIGNAL_TRUST_THRESHOLD`. -/
def PRIORITY_SIGNAL_TRUST_THRESHOLD : ℚ := 45

/-- `CONGESTION_TRUST_THRESHOLD`. -/
def CONGESTION_TRUST_THRESHOLD : ℚ := 25

/-- `MAX_PLAUSIBLE_TRAFFIC`. -/
def MAX_PLAUSIBLE_TRAFFIC : ℤ := 200

/-- A parsed sensor reply, as produced by `query_sensor_raw` and consumed by
`update_trust_scores` / `predict_priority_edge` (the `traffic` field is kept
optional because the consumers re-check it defensively). -/
structure Reading where
  traffic : Option ℤ
  priority : Bool
  deriving DecidableEq, Repr

/-- The plausibility filter of `update_trust_scores` line 199: a reading
counts as a report only when it exists, has a traffic value, and that value
lies in `[0, MAX_PLAUSIBLE_TRAFFIC]`. -/
def plausibleReport (reading : Option Reading) : Option ℤ :=
  match reading with
  | none => none
  | some r =>
    match r.traffic with
    | none => none
    | some t => if 0 ≤ t ∧ t ≤ MAX_PLAUSIBLE_TRAFFIC then some t else none

/-- One sensor's view for the peer-statistics pass: its reading this cycle and
its trust score from the pre-update snapshot
(`current_trust_map_for_peer_calc`). -/
structure PeerInput where
  reading : Option Reading
  trust : ℚ
  deriving DecidableEq, Repr

/-- One sensor's contribution to `trusted_peer_readings_traffic`
(lines 198-201): its plausible report, when its snapshot trust is at or above
`CONGESTION_TRUST_THRESHOLD`. -/
def trustedContribution (s : PeerInput) : Option ℤ :=
  match plausibleReport s.reading with
  | some t => if CONGESTION_TRUST_THRESHOLD ≤ s.trust then some t else none
  | none => none

/-- `trusted_peer_readings_traffic` (lines 198-201). -/
def trustedPeerReadings (sensors : List PeerInput) : List ℤ :=
  sensors.filterMap trustedContribution

/-- `np.mean` over an integer reading list. -/
def meanQ (l : List ℤ) : ℚ := (l.sum : ℚ) / l.length

/-- The population variance under `np.std` (`std = sqrt(varQ)`). -/
def varQ (l : List ℤ) : ℚ :=
  ((l.map fun x : ℤ => ((x : ℚ) - meanQ l) ^ 2).sum) / l.length

/-- The relation pinning `std_trusted_peer_traffic` (line 203): `0.0` when at
most one trusted reading, else the nonnegative square root of the population
variance (irrational in general, hence relational). -/
def IsStd (l : List ℤ) (s : ℚ) : Prop :=
  if l.length ≤ 1 then s = 0 else 0 ≤ s ∧ s ^ 2 = varQ l

/-- `deviation_from_peer_mean` (line 210). -/
def peerDeviation (report : ℤ) (trusted : List ℤ) : ℚ :=
  |(report : ℚ) - meanQ trusted|

/-- `np.clip(·, universe[0], universe[-1])` for the z-score universe
`arange(-3.5, 3.51, 0.1)`. -/
def clipZ (x : ℚ) : ℚ := min (7/2) (max (-(7/2)) x)

/-- The peer-agreement z-score of lines 208-213: `dev / std` when
`std > 0.001`, else `3.0` on any positive deviation, else `0.0`; clipped to
the universe. -/
def peerZScore (deviationFromPeerMean stdTrustedPeer : ℚ) : ℚ :=
  clipZ (if 1/1000 < stdTrustedPeer then deviationFromPeerMean / stdTrustedPeer
    else if 0 < deviationFromPeerMean then 3 else 0)

/-- scikit-fuzzy's `smf(x, a, b)` S-shaped membership function. -/
def smf (a b x : ℚ) : ℚ :=
  if x ≤ a then 0
  else if x ≤ (a + b) / 2 then 2 * ((x - a) / (b - a)) ^ 2
  else if x ≤ b then 1 - 2 * ((x - b) / (b - a)) ^ 2
  else 1

/-- Membership of the `worse_than_peers` band of the z-score antecedent,
`smf(universe, 1.0, 2.0)` (line 64). -/
def worseThanPeersMembership (z : ℚ) : ℚ := smf 1 2 z

/-- The new trust score of one sensor for one cycle (lines 206-234): the
fuzzy blend / fuzzy-error fallback when the sensor produced a plausible report
or a passage deviation is available, then the response-status penalties
(`-=`, note: subtracted, not substituted), then the clamp to
`[TRUST_FLOOR, TRUST_CEILING]`. -/
def updateTrustSingle (currentDataTrust : ℚ) (reading : Option Reading)
    (passageDeviation : Option ℚ) (fuzzyResult : Option ℚ) : ℚ :=
  let reported := plausibleReport reading
  let afterFuzzy :=
    if reported.isSome ∨ passageDeviation.isSome then
      match fuzzyResult with
      | some out =>
          (1 - TRUST_UPDATE_ALPHA) * currentDataTrust + TRUST_UPDATE_ALPHA * out
      | none => currentDataTrust - TRUST_DECAY_FUZZY_ERROR
    else currentDataTrust
  let afterResponsePenalty :=
    match reading with
    | none => afterFuzzy - TRUST_DECAY_FAILURE
    | some r =>
      match r.traffic with
      | none => afterFuzzy - TRUST_DECAY_FAILURE * (1/2)
      | some t =>
        if ¬ (0 ≤ t ∧ t ≤ MAX_PLAUSIBLE_TRAFFIC) then
          afterFuzzy - TRUST_DECAY_IMPLAUSIBLE
        else afterFuzzy
  max TRUST_FLOOR (min TRUST_CEILING afterResponsePenalty)

/-! ### Claim C2 -/

/-- C2 counterexample: a sensor that gave no response while a passage
deviation was available (its edge was prioritized last cycle and the passage
count arrived).  The fuzzy blend runs (here: old trust 50, fuzzy output 100,
blend `0.7·50 + 0.3·100 = 65`) and the no-response penalty is subtracted from
the *blended* value, giving 60 — not the claimed penalty-overrides-blend value
`clamp(50 - 5) = 45`. -/
theorem C2_counterexample :
    updateTrustSingle 50 none (some 0) (some 100) = 60 ∧
    max TRUST_FLOOR (min TRUST_CEILING (50 - TRUST_DECAY_FAILURE)) = 45 ∧
    (60 : ℚ) ≠ 45 := by
  refine ⟨?_, ?_, by norm_num⟩
  · unfold updateTrustSingle plausibleReport
    norm_num [TRUST_UPDATE_ALPHA, TRUST_DECAY_FAILURE, TRUST_FLOOR, TRUST_CEILING]
  · norm_num [TRUST_FLOOR, TRUST_CEILING, TRUST_DECAY_FAILURE]

/-- C2 (amended): the error penalties are *subtracted* from the working trust
value rather than replacing the blend.  When no passage deviation is
available, no blend runs and the new trust is exactly
`clamp(old - penalty)` — 5 for no response, 2.5 for a response without a
traffic value, 3 for an implausible value; when a passage deviation is
available, the blend runs first and the penalty is subtracted from the
blended value (combined, not overriding).  The implausible-value penalty is
strictly smaller than the no-response penalty. -/
theorem C2_penalty_amended (old d out : ℚ) (t : ℤ) (prio : Bool)
    (fz : Option ℚ) :
    (updateTrustSingle old none none fz =
      max TRUST_FLOOR (min TRUST_CEILING (old - TRUST_DECAY_FAILURE))) ∧
    (updateTrustSingle old (some ⟨none, prio⟩) none fz =
      max TRUST_FLOOR (min TRUST_CEILING (old - TRUST_DECAY_FAILURE * (1/2)))) ∧
    (¬ (0 ≤ t ∧ t ≤ MAX_PLAUSIBLE_TRAFFIC) →
      updateTrustSingle old (some ⟨some t, prio⟩) none fz =
        max TRUST_FLOOR (min TRUST_CEILING (old - TRUST_DECAY_IMPLAUSIBLE))) ∧
    (updateTrustSingle old none (some d) (some out) =
      max TRUST_FLOOR (min TRUST_CEILING
        ((1 - TRUST_UPDATE_ALPHA) * old + TRUST_UPDATE_ALPHA * out -
          TRUST_DECAY_FAILURE))) ∧
    TRUST_DECAY_IMPLAUSIBLE < TRUST_DECAY_FAILURE := by
  refine ⟨?_, ?_, ?_, ?_, by norm_num [TRUST_DECAY_IMPLAUSIBLE, TRUST_DECAY_FAILURE]⟩
  · unfold updateTrustSingle plausibleReport
    simp
  · unfold updateTrustSingle plausibleReport
    simp
  · intro himpl
    unfold updateTrustSingle plausibleReport
    simp [himpl]
  · unfold updateTrustSingle plausibleReport
    simp

/-- Witness for C2 (amended) at concrete inputs. -/
theorem C2_penalty_amended_witness :
    ¬ ((0:ℤ) ≤ 300 ∧ (300:ℤ) ≤ MAX_PLAUSIBLE_TRAFFIC) ∧
    updateTrustSingle 50 (some ⟨some 300, false⟩) none none =
      max TRUST_FLOOR (min TRUST_CEILING (50 - TRUST_DECAY_IMPLAUSIBLE)) := by
  have h := C2_penalty_amended 50 0 0 300 false none
  have himpl : ¬ ((0:ℤ) ≤ 300 ∧ (300:ℤ) ≤ MAX_PLAUSIBLE_TRAFFIC) := by
    norm_num [MAX_PLAUSIBLE_TRAFFIC]
  exact ⟨himpl, h.2.2.1 himpl⟩


/-! ### Claim C7 -/

theorem filterMap_replicate_some {α β : Type} (f : α → Option β) (a : α) (b : β)
    (h : f a = some b) (n : ℕ) :
    (List.replicate n a).filterMap f = List.replicate n b := by
  induction n with
  | zero => rfl
  | succ n ih => simp [List.replicate_succ, List.filterMap_cons, h, ih]

/-- A population of 1000001 trusted sensors: a million reading 0, one reading
1.  Their integer readings have standard deviation `1000/1000001`, which is
positive but below the code's `0.001` cutoff. -/
def C7bigInput : List PeerInput :=
  List.replicate 1000000 ⟨some ⟨some 0, false⟩, 50⟩ ++ [⟨some ⟨some 1, false⟩, 50⟩]

theorem C7big_trusted :
    trustedPeerReadings C7bigInput = List.replicate 1000000 (0:ℤ) ++ [1] := by
  unfold trustedPeerReadings C7bigInput
  rw [List.filterMap_append]
  rw [filterMap_replicate_some trustedContribution ⟨some ⟨some 0, false⟩, 50⟩ (0:ℤ) rfl]
  rw [List.filterMap_cons, List.filterMap_nil]
  rfl

theorem C7big_length : (trustedPeerReadings C7bigInput).length = 1000001 := by
  rw [C7big_trusted, List.length_append, List.length_replicate]
  rfl

theorem C7big_mean : meanQ (trustedPeerReadings C7bigInput) = 1/1000001 := by
  unfold meanQ
  rw [C7big_length, C7big_trusted, List.sum_append, List.sum_replicate]
  norm_num

theorem C7big_var : varQ (trustedPeerReadings C7bigInput) = 1000000/1000001^2 := by
  unfold varQ
  rw [C7big_mean, C7big_length, C7big_trusted]
  rw [List.map_append, List.sum_append, List.map_replicate, List.sum_replicate]
  simp only [List.map_cons, List.map_nil, List.sum_cons, List.sum_nil, nsmul_eq_mul]
  push_cast
  norm_num

/-- C7 counterexample: with the `C7bigInput` population the trusted-peer
standard deviation is `1000/1000001` — nonzero, so the claim's zero-variance
clause does not apply and the claimed score is the clipped
`dev / std = 7/2`; but the code's cutoff `std > 0.001` fails, so it instead
assigns the fixed value `3`. -/
theorem C7_counterexample :
    IsStd (trustedPeerReadings C7bigInput) (1000/1000001) ∧
    (1000 : ℚ)/1000001 ≠ 0 ∧
    peerZScore (peerDeviation 1 (trustedPeerReadings C7bigInput)) (1000/1000001) = 3 ∧
    clipZ (peerDeviation 1 (trustedPeerReadings C7bigInput) / (1000/1000001)) = 7/2 ∧
    (3 : ℚ) ≠ 7/2 := by
  have hdev : peerDeviation 1 (trustedPeerReadings C7bigInput) = 1000000/1000001 := by
    unfold peerDeviation
    rw [C7big_mean, abs_of_nonneg] <;> norm_num
  refine ⟨?_, by norm_num, ?_, ?_, by norm_num⟩
  · unfold IsStd
    rw [C7big_length, if_neg (by norm_num)]
    exact ⟨by norm_num, by rw [C7big_var]; norm_num⟩
  · rw [hdev]
    unfold peerZScore clipZ
    rw [if_neg (by norm_num), if_pos (by norm_num)]
    norm_num
  · rw [hdev]
    unfold clipZ
    norm_num

/-- C7 (amended): the reporting sensor's peer-agreement score is its absolute
deviation from the trusted-peer mean divided by the trusted-peer standard
deviation, clipped to the z-score universe `[-3.5, 3.5]`, *when that standard
deviation exceeds the code's cutoff `0.001`*; whenever the standard deviation
is at most `0.001` (in particular zero, as with a single trusted peer), any
nonzero deviation yields the fixed value `3.0`, which carries full membership
of the `worse_than_peers` (maximal-disagreement) band; the score always lies
in the universe. -/
theorem C7_peer_zscore_amended (sensors : List PeerInput) (report : ℤ) (s : ℚ)
    (hstd : IsStd (trustedPeerReadings sensors) s) :
    (1/1000 < s →
      peerZScore (peerDeviation report (trustedPeerReadings sensors)) s =
        clipZ (peerDeviation report (trustedPeerReadings sensors) / s)) ∧
    (s ≤ 1/1000 → 0 < peerDeviation report (trustedPeerReadings sensors) →
      peerZScore (peerDeviation report (trustedPeerReadings sensors)) s = 3 ∧
      worseThanPeersMembership 3 = 1) ∧
    ((trustedPeerReadings sensors).length ≤ 1 → s = 0) ∧
    (-(7/2) ≤ peerZScore (peerDeviation report (trustedPeerReadings sensors)) s ∧
      peerZScore (peerDeviation report (trustedPeerReadings sensors)) s ≤ 7/2) := by
  refine ⟨?_, ?_, ?_, ?_⟩
  · intro hgt
    unfold peerZScore
    rw [if_pos hgt]
  · intro hle hdev
    constructor
    · unfold peerZScore
      rw [if_neg (not_lt.mpr hle), if_pos hdev]
      unfold clipZ
      norm_num
    · norm_num [worseThanPeersMembership, smf]
  · intro hlen
    unfold IsStd at hstd
    rwa [if_pos hlen] at hstd
  · constructor
    · exact le_min (by norm_num) (le_max_left _ _)
    · exact min_le_left _ _

/-- Concrete two-sensor population for the C7 witness: readings 2 and 4, both
trusted; mean 3, variance 1, standard deviation 1. -/
def C7witnessInput : List PeerInput :=
  [⟨some ⟨some 2, false⟩, 50⟩, ⟨some ⟨some 4, false⟩, 50⟩]

/-- Witness for C7 (amended) at a concrete population and report. -/
theorem C7_peer_zscore_amended_witness :
    IsStd (trustedPeerReadings C7witnessInput) 1 ∧
    peerZScore (peerDeviation 5 (trustedPeerReadings C7witnessInput)) 1 =
      clipZ (peerDeviation 5 (trustedPeerReadings C7witnessInput) / 1) := by
  have htr : trustedPeerReadings C7witnessInput = [2, 4] := rfl
  have hstd : IsStd (trustedPeerReadings C7witnessInput) 1 := by
    rw [htr]
    unfold IsStd
    norm_num [varQ, meanQ]
  exact ⟨hstd, (C7_peer_zscore_amended C7witnessInput 5 1 hstd).1 (by norm_num)⟩

/-! ### Priority decision — `traffic_light_controller.py`, `predict_priority_edge`

Lines 236-274.  The three dicts the function consults — the readings map, the
trust-score snapshot and the attribute map (of which only `edge_it_monitors`
is read) — are association lists keyed by sensor id; edge labels are the
identifiers compared by the final `sorted(...)[0]` tie-break. -/

/-- One entry of `trusted_priority_alerts` (line 249). -/
structure PriorityAlert where
  trust : ℚ
  traffic : ℤ
  edge : ℕ
  deriving DecidableEq, Repr

/-- The `trusted_priority_alerts` list (lines 240-249): sensors that responded,
asserted priority, have trust at or above `PRIORITY_SIGNAL_TRUST_THRESHOLD`
and have a monitored edge; `traffic_for_sort` falls back to `-1` on a missing
traffic value. -/
def trustedPriorityAlerts (readings : List (ℕ × Option Reading))
    (trust : List (ℕ × ℚ)) (attrs : List (ℕ × ℕ)) : List PriorityAlert :=
  readings.filterMap fun p =>
    match p.2 with
    | none => none
    | some r =>
      if r.priority then
        if PRIORITY_SIGNAL_TRUST_THRESHOLD ≤ lookupD trust p.1 0 then
          match alookup p.1 attrs with
          | some e => some ⟨lookupD trust p.1 0, r.traffic.getD (-1), e⟩
          | none => none
        else none
      else none

/-- Lines 250-252: the stable descending sort by `(trust, traffic)` followed
by `[0]` returns the first element attaining the lexicographically maximal
key; the fold below keeps its current best and replaces it only on a strictly
greater key, which selects exactly that element. -/
def pickBestAlert : List PriorityAlert → Option PriorityAlert
  | [] => none
  | a :: t => some (t.foldl (fun best x =>
      if best.trust < x.trust ∨ (best.trust = x.trust ∧ best.traffic < x.traffic)
      then x else best) a)

/-- One sensor's contribution to `edge_to_trusted_sum` /
`edge_to_trusted_sensor_count` (lines 254-262): skipped when it did not
respond, lacks a traffic value, reports a negative value, is below
`CONGESTION_TRUST_THRESHOLD`, or has no monitored edge. -/
def congestionContribution (trust : List (ℕ × ℚ)) (attrs : List (ℕ × ℕ))
    (p : ℕ × Option Reading) : Option (ℕ × ℤ) :=
  match p.2 with
  | none => none
  | some r =>
    match r.traffic with
    | none => none
    | some t =>
      if t < 0 then none
      else if CONGESTION_TRUST_THRESHOLD ≤ lookupD trust p.1 0 then
        match alookup p.1 attrs with
        | some e => some (e, t)
        | none => none
      else none

/-- The `(edge, traffic)` contributions in readings-map order. -/
def congestionContribs (readings : List (ℕ × Option Reading))
    (trust : List (ℕ × ℚ)) (attrs : List (ℕ × ℕ)) : List (ℕ × ℤ) :=
  readings.filterMap (congestionContribution trust attrs)

/-- The paired dicts `edge_to_trusted_sum` / `edge_to_trusted_sensor_count`
(they always share keys, so they are modelled as one association list of
`(sum, count)`). -/
def accumSums : List (ℕ × ℤ) → List (ℕ × ℤ × ℕ) :=
  List.foldl (fun acc p =>
    if (alookup p.1 acc).isSome then
      aupdate p.1 (fun sc => (sc.1 + p.2, sc.2 + 1)) acc
    else acc ++ [(p.1, p.2, 1)]) []

/-- `edge_to_avg_trusted_reading` (line 264); the `count > 0` guard of the
comprehension is vacuous since counts start at 1. -/
def edgeAverages (contribs : List (ℕ × ℤ)) : List (ℕ × ℚ) :=
  (accumSums contribs).map fun p => (p.1, (p.2.1 : ℚ) / p.2.2)

/-- The `max_avg_reading` fold of lines 267-269, starting from `-1.0`. -/
def codeMaxAvg (avgs : List (ℕ × ℚ)) : ℚ :=
  avgs.foldl (fun m p => if m < p.2 then p.2 else m) (-1)

/-- `sorted(candidate_priority_edges)[0]`, i.e. the least label, `none` on an
empty candidate list (the code's `if not candidate_priority_edges` guard). -/
def minEdgeLabel : List ℕ → Option ℕ
  | [] => none
  | e :: t => some (t.foldl (fun m x => if x < m then x else m) e)

/-- `predict_priority_edge` (lines 236-274).  The final `except ValueError`
of the source is unreachable (no `max()`/`index()` call remains in this
formulation). -/
def predict_priority_edge (readings : List (ℕ × Option Reading))
    (trust : List (ℕ × ℚ)) (attrs : List (ℕ × ℕ)) : Option ℕ :=
  if readings = [] then none
  else
    match pickBestAlert (trustedPriorityAlerts readings trust attrs) with
    | some a => some a.edge
    | none =>
      let avgs := edgeAverages (congestionContribs readings trust attrs)
      if avgs = [] then none
      else if codeMaxAvg avgs < 0 then none
      else minEdgeLabel
        ((avgs.filter fun p => |p.2 - codeMaxAvg avgs| < 1/1000000000).map Prod.fst)

/-! #### The claim's decision rule, for comparison (claim C1) -/

/-- From claim C1's words: the contribution of an eligible sensor to the
*trust-weighted* per-edge average — eligibility as in the code, but carrying
the sensor's trust as the weight. -/
def specWeightedContribution (trust : List (ℕ × ℚ)) (attrs : List (ℕ × ℕ))
    (p : ℕ × Option Reading) : Option (ℕ × ℚ × ℤ) :=
  match p.2 with
  | none => none
  | some r =>
    match r.traffic with
    | none => none
    | some t =>
      if t < 0 then none
      else if CONGESTION_TRUST_THRESHOLD ≤ lookupD trust p.1 0 then
        match alookup p.1 attrs with
        | some e => some (e, lookupD trust p.1 0, t)
        | none => none
      else none

/-- Per-edge `(Σ trust·reading, Σ trust)` accumulator of the claim's
trust-weighted average. -/
def accumWeighted : List (ℕ × ℚ × ℤ) → List (ℕ × ℚ × ℚ) :=
  List.foldl (fun acc p =>
    if (alookup p.1 acc).isSome then
      aupdate p.1 (fun sc => (sc.1 + p.2.1 * p.2.2, sc.2 + p.2.1)) acc
    else acc ++ [(p.1, p.2.1 * p.2.2, p.2.1)]) []

/-- The claim's trust-weighted per-edge averages. -/
def specWeightedAverages (readings : List (ℕ × Option Reading))
    (trust : List (ℕ × ℚ)) (attrs : List (ℕ × ℕ)) : List (ℕ × ℚ) :=
  (accumWeighted (readings.filterMap (specWeightedContribution trust attrs))).map
    fun p => (p.1, p.2.1 / p.2.2)

/-- The claim's selection rule: an edge whose average is greatest, ties broken
by least edge label. -/
def specBestEdge (avgs : List (ℕ × ℚ)) : Option ℕ :=
  minEdgeLabel ((avgs.filter fun p => avgs.all fun q => q.2 ≤ p.2).map Prod.fst)

/-- Claim C1's full decision rule as stated: trusted priority alerts first
(highest trust, then highest traffic), else the edge with the greatest
*trust-weighted* average (least label on ties), else no edge. -/
def specDecisionClaim (readings : List (ℕ × Option Reading))
    (trust : List (ℕ × ℚ)) (attrs : List (ℕ × ℕ)) : Option ℕ :=
  match pickBestAlert (trustedPriorityAlerts readings trust attrs) with
  | some a => some a.edge
  | none => specBestEdge (specWeightedAverages readings trust attrs)

/-- The amended decision rule: identical except that the per-edge average is
the code's unweighted mean over the trusted sensors. -/
def specDecisionAmended (readings : List (ℕ × Option Reading))
    (trust : List (ℕ × ℚ)) (attrs : List (ℕ × ℕ)) : Option ℕ :=
  match pickBestAlert (trustedPriorityAlerts readings trust attrs) with
  | some a => some a.edge
  | none => specBestEdge (edgeAverages (congestionContribs readings trust attrs))

/-! ### Claim C1 -/

theorem congestionContribution_nonneg {trust : List (ℕ × ℚ)}
    {attrs : List (ℕ × ℕ)} {p : ℕ × Option Reading} {q : ℕ × ℤ}
    (h : congestionContribution trust attrs p = some q) : 0 ≤ q.2 := by
  unfold congestionContribution at h
  split at h
  · exact absurd h (by simp)
  · split at h
    · exact absurd h (by simp)
    · next t heq =>
        split at h
        · exact absurd h (by simp)
        · next hneg =>
            split at h
            · split at h
              · next e he =>
                  have hq : q = (e, t) := by
                    injection h with h
                    exact h.symm
                  rw [hq]
                  exact le_of_not_lt hneg
              · exact absurd h (by simp)
            · exact absurd h (by simp)

theorem accumSums_entry_bounds (contribs : List (ℕ × ℤ))
    (hc : ∀ q ∈ contribs, 0 ≤ q.2) :
    ∀ e ∈ accumSums contribs, 0 ≤ e.2.1 ∧ 1 ≤ e.2.2 := by
  have main : ∀ (l : List (ℕ × ℤ)) (acc : List (ℕ × ℤ × ℕ)),
      (∀ q ∈ l, 0 ≤ q.2) → (∀ e ∈ acc, 0 ≤ e.2.1 ∧ 1 ≤ e.2.2) →
      ∀ e ∈ l.foldl (fun acc p =>
          if (alookup p.1 acc).isSome then
            aupdate p.1 (fun sc => (sc.1 + p.2, sc.2 + 1)) acc
          else acc ++ [(p.1, p.2, 1)]) acc,
        0 ≤ e.2.1 ∧ 1 ≤ e.2.2 := by
    intro l
    induction l with
    | nil => intro acc _ hacc e he; exact hacc e he
    | cons p t ih =>
        intro acc hl hacc e he
        simp only [List.foldl_cons] at he
        have hp0 : 0 ≤ p.2 := hl p (List.mem_cons_self _ _)
        have ht : ∀ q ∈ t, 0 ≤ q.2 := fun q hq => hl q (List.mem_cons_of_mem _ hq)
        refine ih _ ht ?_ e he
        by_cases hsome : (alookup p.1 acc).isSome
        · rw [if_pos hsome]
          intro e' he'
          rcases mem_aupdate he' with ⟨_, v, hv, he2⟩ | ⟨_, he2⟩
          · have := hacc (p.1, v) hv
            rw [he2]
            exact ⟨by simpa using add_nonneg this.1 hp0, by omega⟩
          · exact hacc e' he2
        · rw [if_neg hsome]
          intro e' he'
          rcases List.mem_append.mp he' with h | h
          · exact hacc e' h
          · simp only [List.mem_singleton] at h
            rw [h]
            exact ⟨hp0, le_refl 1⟩
  exact main contribs [] hc (by intro e he; simp at he)

theorem edgeAverages_nonneg (contribs : List (ℕ × ℤ))
    (hc : ∀ q ∈ contribs, 0 ≤ q.2) :
    ∀ p ∈ edgeAverages contribs, 0 ≤ p.2 := by
  intro p hp
  rcases List.mem_map.mp hp with ⟨e, he, hpe⟩
  have hb := accumSums_entry_bounds contribs hc e he
  rw [← hpe]
  have h1 : (0:ℚ) ≤ (e.2.1 : ℚ) := by exact_mod_cast hb.1
  have h2 : (0:ℚ) ≤ (e.2.2 : ℚ) := by positivity
  exact div_nonneg h1 h2

theorem foldlMax_ge_init (l : List (ℕ × ℚ)) (m : ℚ) :
    m ≤ l.foldl (fun m p => if m < p.2 then p.2 else m) m := by
  induction l generalizing m with
  | nil => simp
  | cons p t ih =>
      simp only [List.foldl_cons]
      refine le_trans ?_ (ih _)
      by_cases h : m < p.2
      · rw [if_pos h]; exact le_of_lt h
      · rw [if_neg h]

theorem foldlMax_ge_mem (l : List (ℕ × ℚ)) (m : ℚ) :
    ∀ p ∈ l, p.2 ≤ l.foldl (fun m p => if m < p.2 then p.2 else m) m := by
  induction l generalizing m with
  | nil => intro p hp; simp at hp
  | cons q t ih =>
      intro p hp
      simp only [List.foldl_cons]
      rcases List.mem_cons.mp hp with h | h
      · subst h
        refine le_trans ?_ (foldlMax_ge_init t _)
        by_cases hm : m < p.2
        · rw [if_pos hm]
        · rw [if_neg hm]; exact le_of_not_lt hm
      · exact ih _ p h

theorem foldlMax_init_or_mem (l : List (ℕ × ℚ)) (m : ℚ) :
    l.foldl (fun m p => if m < p.2 then p.2 else m) m = m ∨
      ∃ p ∈ l, l.foldl (fun m p => if m < p.2 then p.2 else m) m = p.2 := by
  induction l generalizing m with
  | nil => exact Or.inl rfl
  | cons q t ih =>
      simp only [List.foldl_cons]
      by_cases h : m < q.2
      · rw [if_pos h]
        rcases ih q.2 with h1 | ⟨p, hp, hpe⟩
        · exact Or.inr ⟨q, List.mem_cons_self _ _, h1⟩
        · exact Or.inr ⟨p, List.mem_cons_of_mem _ hp, hpe⟩
      · rw [if_neg h]
        rcases ih m with h1 | ⟨p, hp, hpe⟩
        · exact Or.inl h1
        · exact Or.inr ⟨p, List.mem_cons_of_mem _ hp, hpe⟩

/-- Readings for the C1 counterexample: sensor 1 reads 10 on edge 5; sensors 2
and 3 read 0 and 30 on edge 4; nobody asserts priority. -/
def C1exReadings : List (ℕ × Option Reading) :=
  [(1, some ⟨some 10, false⟩), (2, some ⟨some 0, false⟩), (3, some ⟨some 30, false⟩)]

/-- Trust for the C1 counterexample: sensors 1 and 2 at 100, sensor 3 at 25
(all at or above the congestion threshold, below the priority threshold
irrelevant since nobody asserts priority). -/
def C1exTrust : List (ℕ × ℚ) := [(1, 100), (2, 100), (3, 25)]

/-- Edges monitored in the C1 counterexample. -/
def C1exAttrs : List (ℕ × ℕ) := [(1, 5), (2, 4), (3, 4)]

/-- C1 counterexample: with the readings above, the code's unweighted averages
are 10 (edge 5) and (0+30)/2 = 15 (edge 4), so it prioritizes edge 4; the
claim's trust-weighted averages are 10 (edge 5) and
(100·0 + 25·30)/125 = 6 (edge 4), so the claimed rule prioritizes edge 5. -/
theorem C1_counterexample :
    predict_priority_edge C1exReadings C1exTrust C1exAttrs = some 4 ∧
    specDecisionClaim C1exReadings C1exTrust C1exAttrs = some 5 ∧
    (4 : ℕ) ≠ 5 := by
  refine ⟨?_, ?_, by decide⟩
  · norm_num [predict_priority_edge, C1exReadings, C1exTrust, C1exAttrs,
      trustedPriorityAlerts, pickBestAlert, congestionContribs,
      congestionContribution, accumSums, edgeAverages, codeMaxAvg, minEdgeLabel,
      alookup, lookupD, aupdate, PRIORITY_SIGNAL_TRUST_THRESHOLD,
      CONGESTION_TRUST_THRESHOLD, List.filterMap_cons, List.foldl_cons,
      List.filter_cons]
    constructor
    · simp
    · intro h
      exact absurd h (by simp)
  · norm_num [specDecisionClaim, C1exReadings, C1exTrust, C1exAttrs,
      trustedPriorityAlerts, pickBestAlert, specWeightedAverages,
      specWeightedContribution, accumWeighted, specBestEdge, minEdgeLabel,
      alookup, lookupD, aupdate, PRIORITY_SIGNAL_TRUST_THRESHOLD,
      CONGESTION_TRUST_THRESHOLD, List.filterMap_cons, List.foldl_cons,
      List.filter_cons, List.all_cons]

/-- C1 (amended): in every evaluation cycle, `predict_priority_edge` follows
the claimed rule with the per-edge average taken as the plain (unweighted)
mean over the sensors clearing the congestion-trust threshold — trust gates a
sensor's participation but does not weight its reading.  Stated under the
hypothesis that no two distinct per-edge averages lie within the code's
`1e-9` float-comparison tolerance (exact ties excepted), which is where the
code's tolerant candidate filter and an exact-tie reading of the claim could
diverge. -/
theorem C1_decision_amended (readings : List (ℕ × Option Reading))
    (trust : List (ℕ × ℚ)) (attrs : List (ℕ × ℕ))
    (htol : ∀ p ∈ edgeAverages (congestionContribs readings trust attrs),
            ∀ q ∈ edgeAverages (congestionContribs readings trust attrs),
            |p.2 - q.2| < 1/1000000000 → p.2 = q.2) :
    predict_priority_edge readings trust attrs =
      specDecisionAmended readings trust attrs := by
  unfold predict_priority_edge specDecisionAmended
  by_cases hr : readings = []
  · rw [if_pos hr]
    subst hr
    simp [trustedPriorityAlerts, congestionContribs, accumSums, edgeAverages,
      pickBestAlert, specBestEdge, minEdgeLabel]
  · rw [if_neg hr]
    cases hpick : pickBestAlert (trustedPriorityAlerts readings trust attrs) with
    | some a => rfl
    | none =>
      simp only
      set avgs := edgeAverages (congestionContribs readings trust attrs) with havgs
      by_cases hempty : avgs = []
      · rw [if_pos hempty]
        rw [hempty]
        simp [specBestEdge, minEdgeLabel]
      · rw [if_neg hempty]
        have hnn : ∀ p ∈ avgs, 0 ≤ p.2 :=
          edgeAverages_nonneg _ (fun q hq => by
            rcases List.mem_filterMap.mp hq with ⟨x, _, hx⟩
            exact congestionContribution_nonneg hx)
        have hub : ∀ p ∈ avgs, p.2 ≤ codeMaxAvg avgs := foldlMax_ge_mem avgs (-1)
        have hattain : ∃ p ∈ avgs, p.2 = codeMaxAvg avgs := by
          rcases foldlMax_init_or_mem avgs (-1) with h | ⟨p, hp, hpe⟩
          · exfalso
            rcases List.exists_mem_of_ne_nil avgs hempty with ⟨p0, hp0⟩
            have h1 : p0.2 ≤ codeMaxAvg avgs := hub p0 hp0
            have h2 : 0 ≤ p0.2 := hnn p0 hp0
            rw [show codeMaxAvg avgs =
              avgs.foldl (fun m p => if m < p.2 then p.2 else m) (-1) from rfl, h] at h1
            linarith
          · exact ⟨p, hp, hpe.symm⟩
        have hM0 : 0 ≤ codeMaxAvg avgs := by
          obtain ⟨p, hp, hpe⟩ := hattain
          rw [← hpe]
          exact hnn p hp
        rw [if_neg (not_lt.mpr hM0)]
        unfold specBestEdge
        have hfeq : (avgs.filter fun p =>
              decide (|p.2 - codeMaxAvg avgs| < 1/1000000000)) =
            (avgs.filter fun p => avgs.all fun q => decide (q.2 ≤ p.2)) := by
          apply List.filter_congr
          intro p hp
          have hiff : (|p.2 - codeMaxAvg avgs| < 1/1000000000) ↔
              (∀ q ∈ avgs, q.2 ≤ p.2) := by
            constructor
            · intro hclose q hq
              obtain ⟨p0, hp0, hp0e⟩ := hattain
              have : |p.2 - p0.2| < 1/1000000000 := by rwa [hp0e]
              have hpm : p.2 = p0.2 := htol p hp p0 hp0 this
              rw [hpm, hp0e]
              exact hub q hq
            · intro hall
              obtain ⟨p0, hp0, hp0e⟩ := hattain
              have h1 : codeMaxAvg avgs ≤ p.2 := hp0e ▸ hall p0 hp0
              have h2 : p.2 ≤ codeMaxAvg avgs := hub p hp
              have : p.2 = codeMaxAvg avgs := le_antisymm h2 h1
              rw [this, sub_self, abs_zero]
              norm_num
          rw [show (avgs.all fun q => decide (q.2 ≤ p.2)) =
              decide (∀ q ∈ avgs, q.2 ≤ p.2) by
            rw [Bool.eq_iff_iff]
            simp only [List.all_eq_true, decide_eq_true_eq]]
          exact decide_eq_decide.mpr hiff
        rw [hfeq]

/-- Witness for C1 (amended) at the concrete counterexample inputs (whose two
averages, 10 and 15, are far apart, discharging the tolerance hypothesis). -/
theorem C1_decision_amended_witness :
    predict_priority_edge C1exReadings C1exTrust C1exAttrs =
      specDecisionAmended C1exReadings C1exTrust C1exAttrs := by
  apply C1_decision_amended
  have havg : edgeAverages (congestionContribs C1exReadings C1exTrust C1exAttrs) =
      [(5, 10), (4, 15)] := by
    norm_num [C1exReadings, C1exTrust, C1exAttrs, congestionContribs,
      congestionContribution, accumSums, edgeAverages, alookup, lookupD,
      aupdate, CONGESTION_TRUST_THRESHOLD, List.filterMap_cons, List.foldl_cons]
  rw [havg]
  intro p hp q hq hclose
  rcases List.mem_cons.mp hp with hp1 | hp1
  · rcases List.mem_cons.mp hq with hq1 | hq1
    · rw [hp1, hq1]
    · simp only [List.mem_singleton] at hq1
      subst hp1; subst hq1
      norm_num at hclose
  · simp only [List.mem_singleton] at hp1
    rcases List.mem_cons.mp hq with hq1 | hq1
    · subst hp1; subst hq1
      norm_num at hclose
    · simp only [List.mem_singleton] at hq1
      rw [hp1, hq1]

/-! ### Simulation Engine — `realtimetrafficserver.py`

The tick state (`groups`, `edge_occupancy`, `next_group_id`).  Randomness and
routing enter `spawn_group_local` as one oracle value per tick: the chosen
destination, group size, priority flag, and the path returned by
`find_dynamic_route_local` (`none` when no path was found).  The occupancy
dict maps normalized (sorted) node pairs to id sets, modelled as
duplicate-free lists. -/

/-- An edge key, `tuple(sorted((u, v)))`. -/
abbrev Edge := ℤ × ℤ

/-- Normalize a node pair to its edge key. -/
def mkEdge (u v : ℤ) : Edge := (min u v, max u v)

/-- The road graph: node list and edge data keyed by node pair. -/
structure Graph where
  nodes : List ℤ
  edges : List (Edge × EdgeData)

/-- `G.get_edge_data(u, v)` — orientation-insensitive, like networkx. -/
def Graph.edgeData (G : Graph) (e : Edge) : Option EdgeData :=
  (G.edges.find? fun p => mkEdge p.1.1 p.1.2 = mkEdge e.1 e.2).map Prod.snd

/-- `G.has_edge(u, v)`. -/
def Graph.hasEdgeNodes (G : Graph) (u v : ℤ) : Bool :=
  (G.edgeData (mkEdge u v)).isSome

/-- One vehicle group (the dict of `spawn_group_local` line 151). -/
structure Group where
  size : ℕ
  current_edge : Edge
  pos_on_edge : ℚ
  path : List ℤ
  destination : ℤ
  current_node : ℤ
  is_priority : Bool
  deriving DecidableEq, Repr

/-- `groups`: id-keyed association list. -/
abbrev Groups := List (ℕ × Group)

/-- `edge_occupancy`: edge-keyed association list of id sets. -/
abbrev Occupancy := List (Edge × List ℕ)

/-- `edge_occupancy.get(e, set())`. -/
def occGet (occ : Occupancy) (e : Edge) : List ℕ := (alookup e occ).getD []

/-- `edge_occupancy.setdefault(e, set()).add(gid)`. -/
def occAdd (occ : Occupancy) (e : Edge) (gid : ℕ) : Occupancy :=
  if (alookup e occ).isSome then aupdate e (fun l => l.insert gid) occ
  else occ ++ [(e, [gid])]

/-- The guarded `edge_occupancy[e].remove(gid)` (no-ops on a missing key or
absent id, as the `in` guards of lines 221 and 228 arrange). -/
def occDel (occ : Occupancy) (e : Edge) (gid : ℕ) : Occupancy :=
  aupdate e (fun l => l.erase gid) occ

/-- `get_total_cars_on_edge_local` (lines 100-106): total size of the groups
registered on the edge (missing ids count 0). -/
def get_total_cars_on_edge_local (e : Edge) (occ : Occupancy) (groups : Groups) : ℕ :=
  ((occGet occ e).map fun gid =>
    match alookup gid groups with
    | some g => g.size
    | none => 0).sum

/-- `SIM_TIME_STEP_SECONDS`. -/
def SIM_TIME_STEP_SECONDS : ℚ := 2

/-- `MAX_GROUPS`. -/
def MAX_GROUPS : ℕ := 50

/-- What `update_group_positions_local` decides to do with one group. -/
inductive StepRes
  | stay
  | setPos (q : ℚ)
  | removedQuiet
  | removedLogged (node : ℤ)
  | moved (newEdge : Edge) (newNode : ℤ)
  deriving DecidableEq, Repr

/-- The per-group body of the loop of `update_group_positions_local`
(lines 174-216), computed against the pre-tick occupancy snapshot (`cars`):
`stay` for an infinite or non-positive travel time (the `continue`),
`setPos` for progress below 1, `removedQuiet` for a missing edge or a
`ValueError` from `path.index` (no passage logged), `removedLogged` /
`moved` for arrivals (passage logged at the reached node). -/
def groupStep (pow2 : ℚ → ℚ) (timeStep : ℚ) (G : Graph) (cars : ℕ)
    (g : Group) : StepRes :=
  match G.edgeData g.current_edge with
  | none => .removedQuiet
  | some ed =>
    match calculate_dynamic_travel_time_local pow2 ed (cars : ℚ) with
    | none => .stay
    | some travelTime =>
      if travelTime ≤ 0 then .stay
      else
        let d := ed.distance
        let fractionMoved :=
          if 0 < d then (d / travelTime / 60 * timeStep) / d else 1
        let newPos := g.pos_on_edge + fractionMoved
        if 1 ≤ newPos then
          let endNode := if g.current_edge.2 = g.current_node
            then g.current_edge.1 else g.current_edge.2
          match g.path.findIdx? (fun n => n = endNode) with
          | none => .removedQuiet
          | some i =>
            if endNode = g.destination then .removedLogged endNode
            else if i + 1 < g.path.length then
              let nxt := g.path.getD (i + 1) 0
              if G.hasEdgeNodes endNode nxt then .moved (mkEdge endNode nxt) endNode
              else .removedLogged endNode
            else .removedLogged endNode
        else .setPos newPos

/-- `log[n] = log.get(n, 0) + size` (lines 199-200). -/
def logAdd (log : List (ℤ × ℕ)) (n : ℤ) (s : ℕ) : List (ℤ × ℕ) :=
  if (alookup n log).isSome then aupdate n (· + s) log else log ++ [(n, s)]

/-- One group's decision, computed against the pre-loop snapshot totals
(`current_edge_total_cars_snapshot`, lines 169-172). -/
def decideStep (pow2 : ℚ → ℚ) (timeStep : ℚ) (G : Graph) (occ : Occupancy)
    (groups : Groups) (p : ℕ × Group) : StepRes :=
  groupStep pow2 timeStep G
    (get_total_cars_on_edge_local p.2.current_edge occ groups) p.2

/-- The loop's decisions in iteration order, each paired with its id and
(pre-write) group. -/
def stepResults (pow2 : ℚ → ℚ) (timeStep : ℚ) (G : Graph) (groups : Groups)
    (occ : Occupancy) : List (ℕ × Group × StepRes) :=
  groups.map fun p => (p.1, p.2, decideStep pow2 timeStep G occ groups p)

/-- The in-loop position writes (line 216): `setPos` groups get their new
position, everything else is untouched at this stage. -/
def posWrites (res : List (ℕ × Group × StepRes)) : Groups :=
  res.map fun r =>
    match r.2.2 with
    | .setPos q => (r.1, { r.2.1 with pos_on_edge := q })
    | _ => (r.1, r.2.1)

/-- The tick's passage log (lines 199-200), accumulated in loop order. -/
def passageLog (res : List (ℕ × Group × StepRes)) : List (ℤ × ℕ) :=
  res.foldl (fun acc r =>
    match r.2.2 with
    | .removedLogged n => logAdd acc n r.2.1.size
    | .moved _ n => logAdd acc n r.2.1.size
    | _ => acc) []

/-- `groups_to_remove` in loop order. -/
def remIds (res : List (ℕ × Group × StepRes)) : List ℕ :=
  res.filterMap fun r =>
    match r.2.2 with
    | .removedQuiet => some r.1
    | .removedLogged _ => some r.1
    | _ => none

/-- `groups_to_move_to_new_edge` in loop order: `(id, old_edge, new_edge,
new_start_node)`, the old edge recorded at decision time (line 209). -/
def movEntries (res : List (ℕ × Group × StepRes)) : List (ℕ × Edge × Edge × ℤ) :=
  res.filterMap fun r =>
    match r.2.2 with
    | .moved ne nn => some (r.1, r.2.1.current_edge, ne, nn)
    | _ => none

/-- One iteration of the removal loop (lines 218-223): deregister from the
occupancy of the group's current edge, then delete the group (guarded by
membership, as in the source). -/
def remStep (st : Groups × Occupancy) (gid : ℕ) : Groups × Occupancy :=
  match alookup gid st.1 with
  | some g => (aerase gid st.1, occDel st.2 g.current_edge gid)
  | none => st

/-- The `local_groups[gid].update(...)` of lines 232-237: onto the new edge,
position reset to 0, new start node. -/
def movApply (m : ℕ × Edge × Edge × ℤ) (g : Group) : Group :=
  { g with
    current_edge := m.2.2.1
    pos_on_edge := 0
    current_node := m.2.2.2 }

/-- One iteration of the move loop (lines 225-238): deregister from the old
edge, reset the group onto the new edge at position 0, register under the new
edge (guarded by group existence, as in the source). -/
def movStep (st : Groups × Occupancy) (m : ℕ × Edge × Edge × ℤ) :
    Groups × Occupancy :=
  if (alookup m.1 st.1).isSome then
    (aupdate m.1 (movApply m) st.1,
     occAdd (occDel st.2 m.2.1 m.1) m.2.2.1 m.1)
  else st

/-- `update_group_positions_local` (lines 163-238): decide every group's step
against the snapshot totals, apply the in-loop position writes, then the
removals, then the edge transitions; returns the new groups, occupancy, and
the tick's passage log. -/
def update_group_positions_local (pow2 : ℚ → ℚ) (timeStep : ℚ) (G : Graph)
    (groups : Groups) (occ : Occupancy) : Groups × Occupancy × List (ℤ × ℕ) :=
  let res := stepResults pow2 timeStep G groups occ
  let afterRem := (remIds res).foldl remStep (posWrites res, occ)
  let afterMov := (movEntries res).foldl movStep afterRem
  (afterMov.1, afterMov.2, passageLog res)

/-- The oracle for one tick's spawn attempt: chosen destination, random size
and priority flag, and the path `find_dynamic_route_local` returned
(`none` when routing failed or the loop picked no usable pair). -/
structure SpawnData where
  path : List ℤ
  size : ℕ
  destination : ℤ
  is_priority : Bool
  deriving DecidableEq, Repr

/-- `spawn_group_local` (lines 131-161): skipped below 2 nodes, at the
`MAX_GROUPS` ceiling, or without a path of length ≥ 2; otherwise the new
group starts at position 0 on the first path edge and is registered in the
occupancy under the fresh id. -/
def spawn_group_local (G : Graph) (sd : Option SpawnData)
    (groups : Groups) (occ : Occupancy) (nextGroupId : ℕ) :
    Groups × Occupancy × ℕ :=
  if G.nodes.length < 2 then (groups, occ, nextGroupId)
  else if MAX_GROUPS ≤ groups.length then (groups, occ, nextGroupId)
  else
    match sd with
    | none => (groups, occ, nextGroupId)
    | some sd =>
      match sd.path with
      | n0 :: n1 :: _ =>
        let e := mkEdge n0 n1
        let g : Group :=
          { size := sd.size
            current_edge := e
            pos_on_edge := 0
            path := sd.path
            destination := sd.destination
            current_node := n0
            is_priority := sd.is_priority }
        (groups ++ [(nextGroupId, g)], occAdd occ e nextGroupId, nextGroupId + 1)
      | _ => (groups, occ, nextGroupId)

/-- The per-tick re-seeding of occupancy keys in `simulation_step_runner`
(lines 252-256): every graph edge gets an (empty) entry if missing. -/
def ensureEdgeKeys (occ : Occupancy) (G : Graph) : Occupancy :=
  G.edges.foldl (fun oc p =>
    if (alookup (mkEdge p.1.1 p.1.2) oc).isSome then oc
    else oc ++ [(mkEdge p.1.1 p.1.2, [])]) occ

/-- The simulation state owned by the tick loop. -/
structure SimState where
  groups : Groups
  occ : Occupancy
  nextGroupId : ℕ

/-- `simulation_step_runner` (lines 241-268) on the deep-copied state: ensure
occupancy keys, spawn (advancing the id counter only on success), update
positions; returns the new state and the fresh passage log. -/
def simulation_step_runner (pow2 : ℚ → ℚ) (G : Graph) (sd : Option SpawnData)
    (s : SimState) : SimState × List (ℤ × ℕ) :=
  let occ0 := ensureEdgeKeys s.occ G
  let sp := spawn_group_local G sd s.groups occ0 s.nextGroupId
  let upd := update_group_positions_local pow2 SIM_TIME_STEP_SECONDS G sp.1 sp.2.1
  (⟨upd.1, upd.2.1, sp.2.2⟩, upd.2.2)

/-- The state published after loading: no groups, an empty id set per graph
edge (`load_graph_and_map_initial` line 89), id counter 0. -/
def initState (G : Graph) : SimState := ⟨[], ensureEdgeKeys [] G, 0⟩

/-- The simulation state after a run of ticks. -/
def runSim (pow2 : ℚ → ℚ) (G : Graph) (spawns : List (Option SpawnData)) : SimState :=
  spawns.foldl (fun s sd => (simulation_step_runner pow2 G sd s).1) (initState G)

/-- The tested invariant: occupancy is exactly the partition of live groups
by `current_edge` — every live group's id is registered on its edge, and
every registered id belongs to a live group on exactly that edge. -/
def OccInv (groups : Groups) (occ : Occupancy) : Prop :=
  (∀ p ∈ groups, p.1 ∈ occGet occ p.2.current_edge) ∧
  (∀ (e : Edge) (gid : ℕ), gid ∈ occGet occ e →
    ∃ g, alookup gid groups = some g ∧ g.current_edge = e)

/-- Structural well-formedness of a tick state: distinct group ids, set-like
occupancy entries, ids bounded by the counter. -/
def WFState (groups : Groups) (occ : Occupancy) (nid : ℕ) : Prop :=
  (akeys groups).Nodup ∧ (∀ e : Edge, (occGet occ e).Nodup) ∧
  (∀ p ∈ groups, p.1 < nid)

/-- The position invariant: every live group sits at a fraction in `[0, 1)`
of its current edge. -/
def PosInv (groups : Groups) : Prop :=
  ∀ p ∈ groups, 0 ≤ p.2.pos_on_edge ∧ p.2.pos_on_edge < 1

/-! #### Occupancy lemmas -/

theorem alookup_eq_none_iff {κ α : Type} [DecidableEq κ] (k : κ)
    (l : List (κ × α)) : alookup k l = none ↔ k ∉ akeys l := by
  induction l with
  | nil => simp [alookup, akeys]
  | cons p t ih =>
      have hmem : k ∈ akeys (p :: t) ↔ k = p.1 ∨ k ∈ akeys t := by
        unfold akeys
        rw [List.map_cons, List.mem_cons]
      by_cases hp : p.1 = k
      · have h1 : alookup k (p :: t) = some p.2 := by simp [alookup, hp]
        rw [h1, hmem]
        constructor
        · intro h
          exact absurd h (by simp)
        · intro h
          exact absurd (Or.inl hp.symm) h
      · have h1 : alookup k (p :: t) = alookup k t := by simp [alookup, hp]
        rw [h1, hmem, ih]
        constructor
        · intro h hc
          rcases hc with hc | hc
          · exact hp hc.symm
          · exact h hc
        · intro h hc
          exact h (Or.inr hc)

theorem occGet_occAdd (occ : Occupancy) (e e' : Edge) (gid : ℕ) :
    occGet (occAdd occ e gid) e' =
      if e' = e then (occGet occ e).insert gid else occGet occ e' := by
  unfold occAdd occGet
  by_cases hsome : (alookup e occ).isSome
  · rw [if_pos hsome, alookup_aupdate]
    by_cases he : e' = e
    · rw [if_pos he, if_pos he, he]
      rcases Option.isSome_iff_exists.mp hsome with ⟨l, hl⟩
      rw [hl]
      rfl
    · rw [if_neg he, if_neg he]
  · rw [if_neg hsome, alookup_append]
    by_cases he : e' = e
    · subst he
      have hnone : alookup e' occ = none := by
        rcases h : alookup e' occ with _ | l
        · rfl
        · rw [h] at hsome; simp at hsome
      rw [hnone, if_pos rfl]
      simp [alookup, hnone]
    · rw [if_neg he]
      rcases h : alookup e' occ with _ | l
      · show (alookup e' [(e, [gid])]).getD [] = none.getD []
        rw [show alookup e' [(e, [gid])] = none by
          simp [alookup]
          exact fun hc => he hc.symm]
      · rfl

theorem occGet_occDel (occ : Occupancy) (e e' : Edge) (gid : ℕ) :
    occGet (occDel occ e gid) e' =
      if e' = e then (occGet occ e).erase gid else occGet occ e' := by
  unfold occDel occGet
  rw [alookup_aupdate]
  by_cases he : e' = e
  · rw [if_pos he, if_pos he, he]
    rcases h : alookup e occ with _ | l
    · rfl
    · rfl
  · rw [if_neg he, if_neg he]

theorem occGet_append_fresh (occ : Occupancy) (e e' : Edge)
    (h : alookup e occ = none) :
    occGet (occ ++ [(e, ([] : List ℕ))]) e' = occGet occ e' := by
  unfold occGet
  rw [alookup_append]
  by_cases he : e' = e
  · subst he
    rw [h]
    simp [alookup]
  · rcases hl : alookup e' occ with _ | l
    · show (alookup e' [(e, ([] : List ℕ))]).getD [] = none.getD []
      rw [show alookup e' [(e, ([] : List ℕ))] = none by
        simp [alookup]
        exact fun hc => he hc.symm]
    · rfl

theorem occGet_ensureEdgeKeys (occ : Occupancy) (G : Graph) (e : Edge) :
    occGet (ensureEdgeKeys occ G) e = occGet occ e := by
  unfold ensureEdgeKeys
  suffices h : ∀ (l : List (Edge × EdgeData)) (oc : Occupancy),
      occGet (l.foldl (fun oc p =>
        if (alookup (mkEdge p.1.1 p.1.2) oc).isSome then oc
        else oc ++ [(mkEdge p.1.1 p.1.2, [])]) oc) e = occGet oc e by
    exact h G.edges occ
  intro l
  induction l with
  | nil => intro oc; rfl
  | cons p t ih =>
      intro oc
      rw [List.foldl_cons, ih]
      by_cases hsome : (alookup (mkEdge p.1.1 p.1.2) oc).isSome
      · rw [if_pos hsome]
      · rw [if_neg hsome]
        apply occGet_append_fresh
        rcases h : alookup (mkEdge p.1.1 p.1.2) oc with _ | v
        · rfl
        · rw [h] at hsome; simp at hsome

/-! #### Structural lemmas about the per-tick update -/

theorem stepResults_keys (pow2 : ℚ → ℚ) (dt : ℚ) (G : Graph) (groups : Groups)
    (occ : Occupancy) :
    (stepResults pow2 dt G groups occ).map (fun r => r.1) = akeys groups := by
  unfold stepResults akeys
  rw [List.map_map]
  rfl

theorem mem_stepResults {pow2 : ℚ → ℚ} {dt : ℚ} {G : Graph} {groups : Groups}
    {occ : Occupancy} {r : ℕ × Group × StepRes}
    (hr : r ∈ stepResults pow2 dt G groups occ) :
    (r.1, r.2.1) ∈ groups ∧ r.2.2 = decideStep pow2 dt G occ groups (r.1, r.2.1) := by
  rcases List.mem_map.mp hr with ⟨p, hp, hpr⟩
  rw [← hpr]
  exact ⟨hp, rfl⟩

theorem stepResults_mem_of_mem {pow2 : ℚ → ℚ} {dt : ℚ} {G : Graph}
    {groups : Groups} {occ : Occupancy} {p : ℕ × Group} (hp : p ∈ groups) :
    (p.1, p.2, decideStep pow2 dt G occ groups p) ∈ stepResults pow2 dt G groups occ := by
  exact List.mem_map.mpr ⟨p, hp, rfl⟩

theorem posWrites_keys (res : List (ℕ × Group × StepRes)) :
    akeys (posWrites res) = res.map (fun r => r.1) := by
  unfold posWrites akeys
  rw [List.map_map]
  congr 1
  funext r
  rcases r with ⟨gid, g, st⟩
  cases st <;> rfl

/-- Membership decomposition of the position-write pass: each output entry
comes from a decision, with the edge (and everything but the position)
untouched. -/
theorem mem_posWrites {res : List (ℕ × Group × StepRes)} {p : ℕ × Group}
    (hp : p ∈ posWrites res) :
    ∃ r ∈ res, p.1 = r.1 ∧ p.2.current_edge = r.2.1.current_edge ∧
      (p.2 = r.2.1 ∨ ∃ q, r.2.2 = .setPos q ∧ p.2 = { r.2.1 with pos_on_edge := q }) := by
  rcases List.mem_map.mp hp with ⟨r, hr, hrp⟩
  refine ⟨r, hr, ?_⟩
  rw [← hrp]
  cases hres : r.2.2 <;> simp [hres]

theorem posWrites_mem_of_mem {res : List (ℕ × Group × StepRes)}
    {r : ℕ × Group × StepRes} (hr : r ∈ res) :
    (r.1, match r.2.2 with
      | .setPos q => { r.2.1 with pos_on_edge := q }
      | _ => r.2.1) ∈ posWrites res := by
  refine List.mem_map.mpr ⟨r, hr, ?_⟩
  cases r.2.2 <;> rfl

theorem mem_remIds {res : List (ℕ × Group × StepRes)} {gid : ℕ}
    (h : gid ∈ remIds res) :
    ∃ r ∈ res, r.1 = gid ∧ (r.2.2 = .removedQuiet ∨ ∃ n, r.2.2 = .removedLogged n) := by
  rcases List.mem_filterMap.mp h with ⟨r, hr, hrg⟩
  refine ⟨r, hr, ?_⟩
  cases hres : r.2.2 <;> rw [hres] at hrg <;> simp at hrg
  · exact ⟨hrg.symm ▸ rfl, Or.inl rfl⟩
  · next n => exact ⟨hrg.symm ▸ rfl, Or.inr ⟨n, rfl⟩⟩

theorem mem_movEntries {res : List (ℕ × Group × StepRes)} {m : ℕ × Edge × Edge × ℤ}
    (h : m ∈ movEntries res) :
    ∃ r ∈ res, r.1 = m.1 ∧ r.2.1.current_edge = m.2.1 ∧
      r.2.2 = .moved m.2.2.1 m.2.2.2 := by
  rcases List.mem_filterMap.mp h with ⟨r, hr, hrm⟩
  refine ⟨r, hr, ?_⟩
  cases hres : r.2.2 <;> rw [hres] at hrm <;> simp at hrm
  next ne nn =>
    rw [← hrm]
    exact ⟨rfl, rfl, rfl⟩

theorem movEntries_keys_sublist (res : List (ℕ × Group × StepRes)) :
    ((movEntries res).map (fun m => m.1)).Sublist (res.map (fun r => r.1)) := by
  induction res with
  | nil => simp [movEntries]
  | cons r t ih =>
      unfold movEntries at ih ⊢
      rw [List.filterMap_cons]
      cases hres : r.2.2 <;> simp only
      · exact ih.cons _
      · exact ih.cons _
      · exact ih.cons _
      · exact ih.cons _
      · rw [List.map_cons, List.map_cons]
        exact ih.cons₂ _

/-! #### Removal- and move-loop lemmas -/

theorem remStep_eq (st : Groups × Occupancy) (r : ℕ) :
    remStep st r = st ∨
      ∃ g, alookup r st.1 = some g ∧
        remStep st r = (aerase r st.1, occDel st.2 g.current_edge r) := by
  unfold remStep
  rcases hl : alookup r st.1 with _ | g
  · exact Or.inl rfl
  · exact Or.inr ⟨g, rfl, rfl⟩

theorem movStep_eq (st : Groups × Occupancy) (m : ℕ × Edge × Edge × ℤ) :
    movStep st m = st ∨
      ((alookup m.1 st.1).isSome ∧ movStep st m =
        (aupdate m.1 (movApply m) st.1,
         occAdd (occDel st.2 m.2.1 m.1) m.2.2.1 m.1)) := by
  unfold movStep
  by_cases hs : (alookup m.1 st.1).isSome
  · rw [if_pos hs]
    exact Or.inr ⟨hs, rfl⟩
  · rw [if_neg hs]
    exact Or.inl rfl

theorem remStep_alookup_of_ne (st : Groups × Occupancy) (r gid : ℕ)
    (h : gid ≠ r) : alookup gid (remStep st r).1 = alookup gid st.1 := by
  rcases remStep_eq st r with he | ⟨g, _, he⟩
  · rw [he]
  · rw [he]
    exact alookup_aerase gid r st.1 h

theorem remStep_alookup_cases (st : Groups × Occupancy) (r gid : ℕ) :
    alookup gid (remStep st r).1 = alookup gid st.1 ∨
      alookup gid (remStep st r).1 = none := by
  by_cases h : gid = r
  · subst h
    rcases remStep_eq st gid with he | ⟨g, _, he⟩
    · rw [he]
      exact Or.inl rfl
    · rw [he]
      exact Or.inr (alookup_aerase_self gid st.1)
  · exact Or.inl (remStep_alookup_of_ne st r gid h)

theorem remFold_alookup_of_not_mem (rems : List ℕ) (gid : ℕ) (h : gid ∉ rems) :
    ∀ st : Groups × Occupancy,
      alookup gid (rems.foldl remStep st).1 = alookup gid st.1 := by
  induction rems with
  | nil => intro st; rfl
  | cons r t ih =>
      intro st
      rw [List.foldl_cons]
      have hgr : gid ≠ r := fun hc => h (hc ▸ List.mem_cons_self r t)
      have hgt : gid ∉ t := fun hc => h (List.mem_cons_of_mem r hc)
      rw [ih hgt, remStep_alookup_of_ne st r gid hgr]

theorem remFold_alookup_cases (rems : List ℕ) (gid : ℕ) :
    ∀ st : Groups × Occupancy,
      alookup gid (rems.foldl remStep st).1 = alookup gid st.1 ∨
        alookup gid (rems.foldl remStep st).1 = none := by
  induction rems with
  | nil => intro st; exact Or.inl rfl
  | cons r t ih =>
      intro st
      rw [List.foldl_cons]
      rcases ih (remStep st r) with h1 | h1
      · rcases remStep_alookup_cases st r gid with h2 | h2
        · exact Or.inl (h1.trans h2)
        · exact Or.inr (h1.trans h2)
      · exact Or.inr h1

theorem remStep_occGet_mem (st : Groups × Occupancy) (r gid : ℕ) (e : Edge)
    (hne : gid ≠ r) (h : gid ∈ occGet st.2 e) :
    gid ∈ occGet (remStep st r).2 e := by
  rcases remStep_eq st r with he | ⟨g, _, he⟩
  · rw [he]
    exact h
  · rw [he]
    show gid ∈ occGet (occDel st.2 g.current_edge r) e
    rw [occGet_occDel]
    by_cases hedge : e = g.current_edge
    · rw [if_pos hedge, ← hedge]
      exact (List.mem_erase_of_ne hne).mpr h
    · rw [if_neg hedge]
      exact h

theorem remFold_occGet_mem (rems : List ℕ) (gid : ℕ) (e : Edge)
    (h : gid ∉ rems) :
    ∀ st : Groups × Occupancy, gid ∈ occGet st.2 e →
      gid ∈ occGet (rems.foldl remStep st).2 e := by
  induction rems with
  | nil => intro st hm; exact hm
  | cons r t ih =>
      intro st hm
      rw [List.foldl_cons]
      have hgr : gid ≠ r := fun hc => h (hc ▸ List.mem_cons_self r t)
      have hgt : gid ∉ t := fun hc => h (List.mem_cons_of_mem r hc)
      exact ih hgt _ (remStep_occGet_mem st r gid e hgr hm)

theorem movStep_alookup_of_ne (st : Groups × Occupancy)
    (m : ℕ × Edge × Edge × ℤ) (gid : ℕ) (h : gid ≠ m.1) :
    alookup gid (movStep st m).1 = alookup gid st.1 := by
  rcases movStep_eq st m with he | ⟨_, he⟩
  · rw [he]
  · rw [he]
    show alookup gid (aupdate m.1 (movApply m) st.1) = alookup gid st.1
    rw [alookup_aupdate, if_neg h]

theorem movFold_alookup_of_not_mem (movs : List (ℕ × Edge × Edge × ℤ))
    (gid : ℕ) (h : ∀ m ∈ movs, m.1 ≠ gid) :
    ∀ st : Groups × Occupancy,
      alookup gid (movs.foldl movStep st).1 = alookup gid st.1 := by
  induction movs with
  | nil => intro st; rfl
  | cons m t ih =>
      intro st
      rw [List.foldl_cons]
      have h1 : gid ≠ m.1 := fun hc => h m (List.mem_cons_self m t) hc.symm
      have h2 : ∀ m' ∈ t, m'.1 ≠ gid := fun m' hm' => h m' (List.mem_cons_of_mem m hm')
      rw [ih h2, movStep_alookup_of_ne st m gid h1]

theorem movStep_occGet_mem (st : Groups × Occupancy)
    (m : ℕ × Edge × Edge × ℤ) (gid : ℕ) (e : Edge) (hne : gid ≠ m.1)
    (h : gid ∈ occGet st.2 e) : gid ∈ occGet (movStep st m).2 e := by
  rcases movStep_eq st m with he | ⟨_, he⟩
  · rw [he]
    exact h
  · rw [he]
    show gid ∈ occGet (occAdd (occDel st.2 m.2.1 m.1) m.2.2.1 m.1) e
    rw [occGet_occAdd]
    have hdel : gid ∈ occGet (occDel st.2 m.2.1 m.1) e := by
      rw [occGet_occDel]
      by_cases hedge : e = m.2.1
      · rw [if_pos hedge, ← hedge]
        exact (List.mem_erase_of_ne hne).mpr h
      · rw [if_neg hedge]
        exact h
    by_cases hedge : e = m.2.2.1
    · rw [if_pos hedge, ← hedge]
      exact List.mem_insert_of_mem hdel
    · rw [if_neg hedge]
      exact hdel

theorem movFold_occGet_mem (movs : List (ℕ × Edge × Edge × ℤ)) (gid : ℕ)
    (e : Edge) (h : ∀ m ∈ movs, m.1 ≠ gid) :
    ∀ st : Groups × Occupancy, gid ∈ occGet st.2 e →
      gid ∈ occGet (movs.foldl movStep st).2 e := by
  induction movs with
  | nil => intro st hm; exact hm
  | cons m t ih =>
      intro st hm
      rw [List.foldl_cons]
      have h1 : gid ≠ m.1 := fun hc => h m (List.mem_cons_self m t) hc.symm
      have h2 : ∀ m' ∈ t, m'.1 ≠ gid := fun m' hm' => h m' (List.mem_cons_of_mem m hm')
      exact ih h2 _ (movStep_occGet_mem st m gid e h1 hm)

/-! #### Invariant preservation through the update -/

theorem remStep_inv (st : Groups × Occupancy) (r : ℕ)
    (hnd : (akeys st.1).Nodup) (hocc : ∀ e, (occGet st.2 e).Nodup)
    (hinv : OccInv st.1 st.2) :
    (akeys (remStep st r).1).Nodup ∧ (∀ e, (occGet (remStep st r).2 e).Nodup) ∧
      OccInv (remStep st r).1 (remStep st r).2 := by
  rcases remStep_eq st r with he | ⟨g, hg, he⟩
  · rw [he]
    exact ⟨hnd, hocc, hinv⟩
  · rw [he]
    refine ⟨?_, ?_, ?_, ?_⟩
    · show (akeys (aerase r st.1)).Nodup
      exact hnd.sublist ((List.filter_sublist st.1).map Prod.fst)
    · intro e
      show (occGet (occDel st.2 g.current_edge r) e).Nodup
      rw [occGet_occDel]
      by_cases hedge : e = g.current_edge
      · rw [if_pos hedge]
        exact (hocc _).erase r
      · rw [if_neg hedge]
        exact hocc e
    · intro p hp
      have hmem := mem_of_mem_aerase hp
      show p.1 ∈ occGet (occDel st.2 g.current_edge r) p.2.current_edge
      rw [occGet_occDel]
      by_cases hedge : p.2.current_edge = g.current_edge
      · rw [if_pos hedge]
        exact (List.mem_erase_of_ne hmem.2).mpr (hedge ▸ hinv.1 p hmem.1)
      · rw [if_neg hedge]
        exact hinv.1 p hmem.1
    · intro e gid hmem
      show ∃ g', alookup gid (aerase r st.1) = some g' ∧ g'.current_edge = e
      rw [show occGet (aerase r st.1, occDel st.2 g.current_edge r).2 e =
        occGet (occDel st.2 g.current_edge r) e from rfl, occGet_occDel] at hmem
      by_cases hedge : e = g.current_edge
      · rw [if_pos hedge] at hmem
        have h1 : gid ∈ occGet st.2 g.current_edge := List.mem_of_mem_erase hmem
        have h2 : gid ≠ r := ((hocc _).mem_erase_iff.mp hmem).1
        obtain ⟨g', hlook, hge⟩ := hinv.2 g.current_edge gid h1
        refine ⟨g', ?_, hedge ▸ hge⟩
        rw [alookup_aerase gid r st.1 h2]
        exact hlook
      · rw [if_neg hedge] at hmem
        obtain ⟨g', hlook, hge⟩ := hinv.2 e gid hmem
        have h2 : gid ≠ r := by
          intro hc
          subst hc
          rw [hlook] at hg
          injection hg with hg
          rw [← hg] at hedge
          exact hedge hge.symm
        refine ⟨g', ?_, hge⟩
        rw [alookup_aerase gid r st.1 h2]
        exact hlook

theorem remFold_inv (rems : List ℕ) :
    ∀ st : Groups × Occupancy, (akeys st.1).Nodup →
      (∀ e, (occGet st.2 e).Nodup) → OccInv st.1 st.2 →
      (akeys (rems.foldl remStep st).1).Nodup ∧
      (∀ e, (occGet (rems.foldl remStep st).2 e).Nodup) ∧
      OccInv (rems.foldl remStep st).1 (rems.foldl remStep st).2 := by
  induction rems with
  | nil => intro st h1 h2 h3; exact ⟨h1, h2, h3⟩
  | cons r t ih =>
      intro st h1 h2 h3
      rw [List.foldl_cons]
      obtain ⟨h1', h2', h3'⟩ := remStep_inv st r h1 h2 h3
      exact ih _ h1' h2' h3'

theorem movStep_inv (st : Groups × Occupancy) (m : ℕ × Edge × Edge × ℤ)
    (hnd : (akeys st.1).Nodup) (hocc : ∀ e, (occGet st.2 e).Nodup)
    (hinv : OccInv st.1 st.2)
    (hedge : ∀ g, alookup m.1 st.1 = some g → g.current_edge = m.2.1) :
    (akeys (movStep st m).1).Nodup ∧ (∀ e, (occGet (movStep st m).2 e).Nodup) ∧
      OccInv (movStep st m).1 (movStep st m).2 := by
  rcases movStep_eq st m with he | ⟨hs, he⟩
  · rw [he]
    exact ⟨hnd, hocc, hinv⟩
  · obtain ⟨g, hlook⟩ := Option.isSome_iff_exists.mp hs
    have hold : g.current_edge = m.2.1 := hedge g hlook
    rw [he]
    refine ⟨?_, ?_, ?_, ?_⟩
    · show (akeys (aupdate m.1 (movApply m) st.1)).Nodup
      rw [akeys_aupdate]
      exact hnd
    · intro e
      show (occGet (occAdd (occDel st.2 m.2.1 m.1) m.2.2.1 m.1) e).Nodup
      rw [occGet_occAdd]
      have hdel : ∀ e', (occGet (occDel st.2 m.2.1 m.1) e').Nodup := by
        intro e'
        rw [occGet_occDel]
        by_cases h1 : e' = m.2.1
        · rw [if_pos h1]
          exact (hocc _).erase m.1
        · rw [if_neg h1]
          exact hocc e'
      by_cases h1 : e = m.2.2.1
      · rw [if_pos h1]
        exact (hdel _).insert
      · rw [if_neg h1]
        exact hdel e
    · intro p hp
      replace hp : p ∈ aupdate m.1 (movApply m) st.1 := hp
      rcases mem_aupdate hp with ⟨hp1, v, hv, hp2⟩ | ⟨hp1, hp2⟩
      · have hv' : alookup m.1 st.1 = some v := mem_alookup_of_nodup hnd hv
        rw [hlook] at hv'
        injection hv' with hv'
        show p.1 ∈ occGet (occAdd (occDel st.2 m.2.1 m.1) m.2.2.1 m.1) p.2.current_edge
        have hpe : p.2.current_edge = m.2.2.1 := by
          rw [hp2, ← hv']
          rfl
        rw [hpe, occGet_occAdd, if_pos rfl, hp1]
        exact List.mem_insert_self _ _
      · have hbase : p.1 ∈ occGet st.2 p.2.current_edge := hinv.1 p hp2
        have := movStep_occGet_mem st m p.1 p.2.current_edge hp1 hbase
        rw [he] at this
        exact this
    · intro e gid hmem
      show ∃ g', alookup gid (aupdate m.1 (movApply m) st.1) = some g' ∧
        g'.current_edge = e
      replace hmem : gid ∈ occGet (occAdd (occDel st.2 m.2.1 m.1) m.2.2.1 m.1) e :=
        hmem
      rw [occGet_occAdd] at hmem
      by_cases hgid : gid = m.1
      · subst hgid
        refine ⟨movApply m g, ?_, ?_⟩
        · rw [alookup_aupdate, if_pos rfl, hlook]
          rfl
        · show (movApply m g).current_edge = e
          by_cases h1 : e = m.2.2.1
          · rw [h1]
            rfl
          · exfalso
            rw [if_neg h1, occGet_occDel] at hmem
            by_cases h2 : e = m.2.1
            · rw [if_pos h2] at hmem
              exact ((hocc _).mem_erase_iff.mp hmem).1 rfl
            · rw [if_neg h2] at hmem
              obtain ⟨g', hlook', hge'⟩ := hinv.2 e m.1 hmem
              rw [hlook] at hlook'
              injection hlook' with hlook'
              rw [← hlook'] at hge'
              rw [← hge'] at h2
              exact h2 hold
      · have hmem' : gid ∈ occGet st.2 e := by
          by_cases h1 : e = m.2.2.1
          · rw [if_pos h1] at hmem
            rcases List.mem_insert_iff.mp hmem with hc | hc
            · exact absurd hc hgid
            · rw [occGet_occDel] at hc
              by_cases h2 : m.2.2.1 = m.2.1
              · rw [if_pos h2] at hc
                rw [h1, h2]
                exact List.mem_of_mem_erase hc
              · rw [if_neg h2] at hc
                rw [h1]
                exact hc
          · rw [if_neg h1, occGet_occDel] at hmem
            by_cases h2 : e = m.2.1
            · rw [if_pos h2] at hmem
              rw [h2]
              exact List.mem_of_mem_erase hmem
            · rw [if_neg h2] at hmem
              exact hmem
        obtain ⟨g', hlook', hge'⟩ := hinv.2 e gid hmem'
        refine ⟨g', ?_, hge'⟩
        rw [alookup_aupdate, if_neg hgid]
        exact hlook'

theorem movFold_inv (movs : List (ℕ × Edge × Edge × ℤ)) :
    ∀ st : Groups × Occupancy, (akeys st.1).Nodup →
      (∀ e, (occGet st.2 e).Nodup) → OccInv st.1 st.2 →
      (∀ m ∈ movs, ∀ g, alookup m.1 st.1 = some g → g.current_edge = m.2.1) →
      ((movs.map fun m => m.1).Nodup) →
      (akeys (movs.foldl movStep st).1).Nodup ∧
      (∀ e, (occGet (movs.foldl movStep st).2 e).Nodup) ∧
      OccInv (movs.foldl movStep st).1 (movs.foldl movStep st).2 := by
  induction movs with
  | nil => intro st h1 h2 h3 _ _; exact ⟨h1, h2, h3⟩
  | cons m t ih =>
      intro st h1 h2 h3 hedges hkeysnd
      rw [List.foldl_cons]
      obtain ⟨h1', h2', h3'⟩ :=
        movStep_inv st m h1 h2 h3 (hedges m (List.mem_cons_self m t))
      rw [List.map_cons, List.nodup_cons] at hkeysnd
      refine ih _ h1' h2' h3' ?_ hkeysnd.2
      intro m' hm' g hg
      have hne : m'.1 ≠ m.1 := by
        intro hc
        exact hkeysnd.1 (hc ▸ List.mem_map_of_mem (fun x => x.1) hm')
      rw [movStep_alookup_of_ne st m m'.1 hne] at hg
      exact hedges m' (List.mem_cons_of_mem m hm') g hg

theorem posWrites_inv (pow2 : ℚ → ℚ) (dt : ℚ) (G : Graph) (groups : Groups)
    (occ : Occupancy) (hnd : (akeys groups).Nodup) (hinv : OccInv groups occ) :
    (akeys (posWrites (stepResults pow2 dt G groups occ))).Nodup ∧
      OccInv (posWrites (stepResults pow2 dt G groups occ)) occ := by
  have hkeys : akeys (posWrites (stepResults pow2 dt G groups occ)) = akeys groups := by
    rw [posWrites_keys, stepResults_keys]
  refine ⟨hkeys ▸ hnd, ?_, ?_⟩
  · intro p hp
    obtain ⟨r, hr, hp1, hpe, _⟩ := mem_posWrites hp
    have hrg := (mem_stepResults hr).1
    rw [hp1, hpe]
    exact hinv.1 (r.1, r.2.1) hrg
  · intro e gid hmem
    obtain ⟨g, hlook, hge⟩ := hinv.2 e gid hmem
    have hgm : (gid, g) ∈ groups := alookup_eq_some_mem hlook
    have hrm : (gid, g, decideStep pow2 dt G occ groups (gid, g)) ∈
        stepResults pow2 dt G groups occ := stepResults_mem_of_mem hgm
    have hpw := posWrites_mem_of_mem hrm
    refine ⟨_, mem_alookup_of_nodup (hkeys ▸ hnd) hpw, ?_⟩
    cases hd : decideStep pow2 dt G occ groups (gid, g) <;>
      simp only [hd] <;> exact hge

theorem update_positions_inv (pow2 : ℚ → ℚ) (dt : ℚ) (G : Graph)
    (groups : Groups) (occ : Occupancy)
    (hnd : (akeys groups).Nodup) (hocc : ∀ e, (occGet occ e).Nodup)
    (hinv : OccInv groups occ) :
    (akeys (update_group_positions_local pow2 dt G groups occ).1).Nodup ∧
    (∀ e, (occGet (update_group_positions_local pow2 dt G groups occ).2.1 e).Nodup) ∧
    OccInv (update_group_positions_local pow2 dt G groups occ).1
      (update_group_positions_local pow2 dt G groups occ).2.1 := by
  unfold update_group_positions_local
  simp only
  set res := stepResults pow2 dt G groups occ with hres
  obtain ⟨hnd1, hinv1⟩ := posWrites_inv pow2 dt G groups occ hnd hinv
  obtain ⟨hnd2, hocc2, hinv2⟩ :=
    remFold_inv (remIds res) (posWrites res, occ) hnd1 hocc hinv1
  have hedges : ∀ m ∈ movEntries res,
      ∀ g, alookup m.1 ((remIds res).foldl remStep (posWrites res, occ)).1 = some g →
        g.current_edge = m.2.1 := by
    intro m hm g hg
    obtain ⟨r, hr, hr1, hre, hrd⟩ := mem_movEntries hm
    rcases remFold_alookup_cases (remIds res) m.1 (posWrites res, occ) with hc | hc
    · rw [hc] at hg
      have hpw := posWrites_mem_of_mem hr
      rw [hrd] at hpw
      have hlook2 : alookup r.1 (posWrites res) = some r.2.1 :=
        mem_alookup_of_nodup hnd1 hpw
      rw [hr1] at hlook2
      rw [hlook2] at hg
      injection hg with hg
      rw [← hg]
      exact hre
    · rw [hc] at hg
      exact absurd hg (by simp)
  have hmovnd : ((movEntries res).map fun m => m.1).Nodup := by
    have hsub := movEntries_keys_sublist res
    rw [hres, stepResults_keys] at hsub
    exact hnd.sublist hsub
  exact movFold_inv (movEntries res) _ hnd2 hocc2 hinv2 hedges hmovnd

theorem remStep_keys_sublist (st : Groups × Occupancy) (r : ℕ) :
    (akeys (remStep st r).1).Sublist (akeys st.1) := by
  rcases remStep_eq st r with he | ⟨g, _, he⟩
  · rw [he]
  · rw [he]
    exact (List.filter_sublist st.1).map Prod.fst

theorem movStep_keys (st : Groups × Occupancy) (m : ℕ × Edge × Edge × ℤ) :
    akeys (movStep st m).1 = akeys st.1 := by
  rcases movStep_eq st m with he | ⟨_, he⟩
  · rw [he]
  · rw [he]
    exact akeys_aupdate m.1 (movApply m) st.1

theorem remFold_keys_sublist (rems : List ℕ) :
    ∀ st : Groups × Occupancy,
      (akeys (rems.foldl remStep st).1).Sublist (akeys st.1) := by
  induction rems with
  | nil => intro st; exact List.Sublist.refl _
  | cons r t ih =>
      intro st
      rw [List.foldl_cons]
      exact (ih (remStep st r)).trans (remStep_keys_sublist st r)

theorem movFold_keys (movs : List (ℕ × Edge × Edge × ℤ)) :
    ∀ st : Groups × Occupancy,
      akeys (movs.foldl movStep st).1 = akeys st.1 := by
  induction movs with
  | nil => intro st; rfl
  | cons m t ih =>
      intro st
      rw [List.foldl_cons, ih (movStep st m), movStep_keys]

theorem update_positions_keys_sublist (pow2 : ℚ → ℚ) (dt : ℚ) (G : Graph)
    (groups : Groups) (occ : Occupancy) :
    (akeys (update_group_positions_local pow2 dt G groups occ).1).Sublist
      (akeys groups) := by
  unfold update_group_positions_local
  simp only
  rw [movFold_keys]
  have h := remFold_keys_sublist
    (remIds (stepResults pow2 dt G groups occ))
    (posWrites (stepResults pow2 dt G groups occ), occ)
  rw [posWrites_keys, stepResults_keys] at h
  exact h

theorem ensureEdgeKeys_inv (groups : Groups) (occ : Occupancy) (G : Graph)
    (hocc : ∀ e, (occGet occ e).Nodup) (hinv : OccInv groups occ) :
    (∀ e, (occGet (ensureEdgeKeys occ G) e).Nodup) ∧
      OccInv groups (ensureEdgeKeys occ G) := by
  refine ⟨fun e => ?_, fun p hp => ?_, fun e gid hmem => ?_⟩
  · rw [occGet_ensureEdgeKeys]
    exact hocc e
  · rw [occGet_ensureEdgeKeys]
    exact hinv.1 p hp
  · rw [occGet_ensureEdgeKeys] at hmem
    exact hinv.2 e gid hmem

theorem register_group_inv (groups : Groups) (occ : Occupancy) (nid : ℕ)
    (g : Group)
    (hnd : (akeys groups).Nodup) (hocc : ∀ e, (occGet occ e).Nodup)
    (hinv : OccInv groups occ) (hbound : ∀ p ∈ groups, p.1 < nid) :
    (akeys (groups ++ [(nid, g)])).Nodup ∧
    (∀ e, (occGet (occAdd occ g.current_edge nid) e).Nodup) ∧
    OccInv (groups ++ [(nid, g)]) (occAdd occ g.current_edge nid) ∧
    (∀ p ∈ groups ++ [(nid, g)], p.1 < nid + 1) := by
  have hfresh : alookup nid groups = none := by
    rw [alookup_eq_none_iff]
    intro hc
    rcases List.mem_map.mp hc with ⟨p, hp, hpe⟩
    exact absurd (hpe ▸ hbound p hp) (lt_irrefl nid)
  have hfresh' : nid ∉ akeys groups := (alookup_eq_none_iff nid groups).mp hfresh
  refine ⟨?_, ?_, ⟨?_, ?_⟩, ?_⟩
  · unfold akeys
    rw [List.map_append, List.nodup_append]
    refine ⟨hnd, List.nodup_singleton nid, ?_⟩
    intro a ha hb
    simp only [List.map_cons, List.map_nil, List.mem_singleton] at hb
    subst hb
    exact hfresh' ha
  · intro e
    rw [occGet_occAdd]
    by_cases he : e = g.current_edge
    · rw [if_pos he]
      exact (hocc _).insert
    · rw [if_neg he]
      exact hocc e
  · intro p hpm
    rcases List.mem_append.mp hpm with hm | hm
    · rw [occGet_occAdd]
      by_cases he : p.2.current_edge = g.current_edge
      · rw [if_pos he]
        exact List.mem_insert_of_mem (he ▸ hinv.1 p hm)
      · rw [if_neg he]
        exact hinv.1 p hm
    · simp only [List.mem_singleton] at hm
      rw [hm]
      show nid ∈ occGet (occAdd occ g.current_edge nid) g.current_edge
      rw [occGet_occAdd, if_pos rfl]
      exact List.mem_insert_self _ _
  · intro e gid hmem
    rw [occGet_occAdd] at hmem
    by_cases he : e = g.current_edge
    · rw [if_pos he] at hmem
      rcases List.mem_insert_iff.mp hmem with hc | hc
      · subst hc
        refine ⟨g, ?_, he.symm⟩
        rw [alookup_append, hfresh]
        show alookup gid [(gid, g)] = some g
        simp [alookup]
      · obtain ⟨g', hlook', hge'⟩ := hinv.2 _ gid hc
        refine ⟨g', ?_, by rw [he]; exact hge'⟩
        rw [alookup_append, hlook']
        rfl
    · rw [if_neg he] at hmem
      obtain ⟨g', hlook', hge'⟩ := hinv.2 e gid hmem
      refine ⟨g', ?_, hge'⟩
      rw [alookup_append, hlook']
      rfl
  · intro p hpm
    rcases List.mem_append.mp hpm with hm | hm
    · exact Nat.lt_succ_of_lt (hbound p hm)
    · simp only [List.mem_singleton] at hm
      rw [hm]
      exact Nat.lt_succ_self nid

theorem spawn_inv (G : Graph) (sd : Option SpawnData) (groups : Groups)
    (occ : Occupancy) (nid : ℕ)
    (hnd : (akeys groups).Nodup) (hocc : ∀ e, (occGet occ e).Nodup)
    (hinv : OccInv groups occ) (hbound : ∀ p ∈ groups, p.1 < nid) :
    (akeys (spawn_group_local G sd groups occ nid).1).Nodup ∧
    (∀ e, (occGet (spawn_group_local G sd groups occ nid).2.1 e).Nodup) ∧
    OccInv (spawn_group_local G sd groups occ nid).1
      (spawn_group_local G sd groups occ nid).2.1 ∧
    (∀ p ∈ (spawn_group_local G sd groups occ nid).1,
      p.1 < (spawn_group_local G sd groups occ nid).2.2) := by
  unfold spawn_group_local
  by_cases h1 : G.nodes.length < 2
  · rw [if_pos h1]
    exact ⟨hnd, hocc, hinv, hbound⟩
  · rw [if_neg h1]
    by_cases h2 : MAX_GROUPS ≤ groups.length
    · rw [if_pos h2]
      exact ⟨hnd, hocc, hinv, hbound⟩
    · rw [if_neg h2]
      cases sd with
      | none => exact ⟨hnd, hocc, hinv, hbound⟩
      | some sd =>
          obtain ⟨path, size, dest, prio⟩ := sd
          cases path with
          | nil => exact ⟨hnd, hocc, hinv, hbound⟩
          | cons n0 rest =>
              cases rest with
              | nil => exact ⟨hnd, hocc, hinv, hbound⟩
              | cons n1 rest2 =>
                  exact register_group_inv groups occ nid _ hnd hocc hinv hbound

/-- The conjunction of well-formedness and the occupancy invariant carried
across ticks. -/
def TickInv (s : SimState) : Prop :=
  (akeys s.groups).Nodup ∧ (∀ e, (occGet s.occ e).Nodup) ∧
    OccInv s.groups s.occ ∧ (∀ p ∈ s.groups, p.1 < s.nextGroupId)

theorem tick_inv (pow2 : ℚ → ℚ) (G : Graph) (sd : Option SpawnData)
    (s : SimState) (h : TickInv s) :
    TickInv (simulation_step_runner pow2 G sd s).1 := by
  obtain ⟨hnd, hocc, hinv, hbound⟩ := h
  obtain ⟨hocc0, hinv0⟩ := ensureEdgeKeys_inv s.groups s.occ G hocc hinv
  obtain ⟨hnd1, hocc1, hinv1, hbound1⟩ :=
    spawn_inv G sd s.groups (ensureEdgeKeys s.occ G) s.nextGroupId hnd hocc0 hinv0 hbound
  set sp := spawn_group_local G sd s.groups (ensureEdgeKeys s.occ G) s.nextGroupId
    with hsp
  obtain ⟨hnd2, hocc2, hinv2⟩ :=
    update_positions_inv pow2 SIM_TIME_STEP_SECONDS G sp.1 sp.2.1 hnd1 hocc1 hinv1
  refine ⟨hnd2, hocc2, hinv2, ?_⟩
  intro p hp
  have hk : p.1 ∈ akeys (update_group_positions_local pow2 SIM_TIME_STEP_SECONDS
      G sp.1 sp.2.1).1 := List.mem_map_of_mem Prod.fst hp
  have hk2 : p.1 ∈ akeys sp.1 :=
    (update_positions_keys_sublist pow2 SIM_TIME_STEP_SECONDS G sp.1 sp.2.1).mem hk
  rcases List.mem_map.mp hk2 with ⟨q, hq, hqe⟩
  exact hqe ▸ hbound1 q hq

theorem initState_inv (G : Graph) : TickInv (initState G) := by
  refine ⟨List.nodup_nil, ?_, ⟨?_, ?_⟩, ?_⟩
  · intro e
    rw [show (initState G).occ = ensureEdgeKeys [] G from rfl, occGet_ensureEdgeKeys]
    exact List.nodup_nil
  · intro p hp
    exact absurd hp (List.not_mem_nil p)
  · intro e gid hmem
    rw [show (initState G).occ = ensureEdgeKeys [] G from rfl,
      occGet_ensureEdgeKeys] at hmem
    exact absurd hmem (List.not_mem_nil gid)
  · intro p hp
    exact absurd hp (List.not_mem_nil p)

theorem runSim_inv (pow2 : ℚ → ℚ) (G : Graph) (spawns : List (Option SpawnData)) :
    TickInv (runSim pow2 G spawns) := by
  unfold runSim
  have main : ∀ (l : List (Option SpawnData)) (s : SimState), TickInv s →
      TickInv (l.foldl (fun s sd => (simulation_step_runner pow2 G sd s).1) s) := by
    intro l
    induction l with
    | nil => exact fun s h => h
    | cons sd t ih => exact fun s h => ih _ (tick_inv pow2 G sd s h)
  exact main spawns (initState G) (initState_inv G)

/-! ### Claim C4 -/

/-- C4: after every completed tick (spawn followed by position update, from
the freshly loaded state on), the edge occupancy is exactly the partition of
the live vehicle groups by `current_edge`: every live group's id is
registered on its current edge, every registered id belongs to a live group
whose current edge is that entry's edge (so no occupancy set retains a
removed group's id), and no id appears under two distinct edges. -/
theorem C4_occupancy_partition (pow2 : ℚ → ℚ) (G : Graph)
    (spawns : List (Option SpawnData)) :
    OccInv (runSim pow2 G spawns).groups (runSim pow2 G spawns).occ ∧
    (∀ (e e' : Edge) (gid : ℕ), gid ∈ occGet (runSim pow2 G spawns).occ e →
      gid ∈ occGet (runSim pow2 G spawns).occ e' → e = e') := by
  obtain ⟨_, _, hinv, _⟩ := runSim_inv pow2 G spawns
  refine ⟨hinv, ?_⟩
  intro e e' gid h1 h2
  obtain ⟨g1, hl1, he1⟩ := hinv.2 e gid h1
  obtain ⟨g2, hl2, he2⟩ := hinv.2 e' gid h2
  rw [hl1] at hl2
  injection hl2 with hl2
  rw [← he1, ← he2, hl2]

/-! ### Claim C5 -/

theorem groupStep_setPos_bounds (pow2 : ℚ → ℚ) (dt : ℚ) (G : Graph) (cars : ℕ)
    (g : Group) (q : ℚ) (hdt : 0 ≤ dt) (hpos : 0 ≤ g.pos_on_edge)
    (h : groupStep pow2 dt G cars g = .setPos q) : 0 ≤ q ∧ q < 1 := by
  unfold groupStep at h
  split at h
  · exact absurd h (by simp)
  · next ed hed =>
      split at h
      · exact absurd h (by simp)
      · next t ht =>
          split at h
          · exact absurd h (by simp)
          · next htpos =>
              simp only [] at h
              by_cases hge : 1 ≤ g.pos_on_edge +
                  (if 0 < ed.distance
                    then ed.distance / t / 60 * dt / ed.distance else 1)
              · rw [if_pos hge] at h
                exfalso
                set en := (if g.current_edge.2 = g.current_node
                  then g.current_edge.1 else g.current_edge.2) with hen
                rcases hidx : List.findIdx? (fun n => decide (n = en)) g.path
                  with _ | i
                · rw [hidx] at h
                  simp at h
                · rw [hidx] at h
                  simp only [] at h
                  split_ifs at h
              · rw [if_neg hge] at h
                injection h with h
                subst h
                constructor
                · have hfrac : (0:ℚ) ≤
                      (if 0 < ed.distance
                        then ed.distance / t / 60 * dt / ed.distance else 1) := by
                    by_cases hd : 0 < ed.distance
                    · rw [if_pos hd]
                      have ht0 : 0 < t := lt_of_not_le htpos
                      positivity
                    · rw [if_neg hd]
                      exact zero_le_one
                  exact add_nonneg hpos hfrac
                · exact lt_of_not_le hge

theorem posWrites_posInv (pow2 : ℚ → ℚ) (dt : ℚ) (G : Graph) (groups : Groups)
    (occ : Occupancy) (hdt : 0 ≤ dt) (hpi : PosInv groups) :
    PosInv (posWrites (stepResults pow2 dt G groups occ)) := by
  intro p hp
  rcases mem_posWrites hp with ⟨r, hr, _, _, hcase⟩
  obtain ⟨hrmem, hdec⟩ := mem_stepResults hr
  have hg := hpi _ hrmem
  rcases hcase with hsame | ⟨q, hsp, hnew⟩
  · rw [hsame]
    exact hg
  · rw [hnew]
    have hstep : groupStep pow2 dt G
        (get_total_cars_on_edge_local r.2.1.current_edge occ groups) r.2.1 =
          .setPos q := by
      rw [show groupStep pow2 dt G
          (get_total_cars_on_edge_local r.2.1.current_edge occ groups) r.2.1 =
            decideStep pow2 dt G occ groups (r.1, r.2.1) from rfl, ← hdec, hsp]
    exact groupStep_setPos_bounds pow2 dt G _ r.2.1 q hdt hg.1 hstep

theorem remStep_posInv (st : Groups × Occupancy) (gid : ℕ)
    (h : PosInv st.1) : PosInv (remStep st gid).1 := by
  rcases remStep_eq st gid with he | ⟨g, _, he⟩
  · rw [he]
    exact h
  · rw [he]
    intro p hp
    exact h p (mem_of_mem_aerase hp).1

theorem remFold_posInv (ids : List ℕ) (st : Groups × Occupancy)
    (h : PosInv st.1) : PosInv (ids.foldl remStep st).1 := by
  induction ids generalizing st with
  | nil => exact h
  | cons i t ih => exact ih _ (remStep_posInv st i h)

theorem movStep_posInv (st : Groups × Occupancy) (m : ℕ × Edge × Edge × ℤ)
    (h : PosInv st.1) : PosInv (movStep st m).1 := by
  rcases movStep_eq st m with he | ⟨_, he⟩
  · rw [he]
    exact h
  · rw [he]
    intro p hp
    rcases mem_aupdate hp with ⟨_, v, _, hpv⟩ | ⟨_, hmem⟩
    · have h0 : p.2.pos_on_edge = 0 := by
        rw [hpv]
        rfl
      rw [h0]
      norm_num
    · exact h p hmem

theorem movFold_posInv (ms : List (ℕ × Edge × Edge × ℤ)) (st : Groups × Occupancy)
    (h : PosInv st.1) : PosInv (ms.foldl movStep st).1 := by
  induction ms generalizing st with
  | nil => exact h
  | cons m t ih => exact ih _ (movStep_posInv st m h)

theorem update_positions_posInv (pow2 : ℚ → ℚ) (dt : ℚ) (G : Graph)
    (groups : Groups) (occ : Occupancy) (hdt : 0 ≤ dt) (h : PosInv groups) :
    PosInv (update_group_positions_local pow2 dt G groups occ).1 := by
  exact movFold_posInv _ _
    (remFold_posInv _ _ (posWrites_posInv pow2 dt G groups occ hdt h))

theorem register_posInv (groups : Groups) (nid : ℕ) (g : Group)
    (hg : g.pos_on_edge = 0) (h : PosInv groups) :
    PosInv (groups ++ [(nid, g)]) := by
  intro p hp
  rcases List.mem_append.mp hp with hm | hm
  · exact h p hm
  · have hpg : p = (nid, g) := List.mem_singleton.mp hm
    rw [hpg]
    show 0 ≤ g.pos_on_edge ∧ g.pos_on_edge < 1
    rw [hg]
    norm_num

theorem spawn_posInv (G : Graph) (sd : Option SpawnData) (groups : Groups)
    (occ : Occupancy) (nid : ℕ) (h : PosInv groups) :
    PosInv (spawn_group_local G sd groups occ nid).1 := by
  unfold spawn_group_local
  by_cases h1 : G.nodes.length < 2
  · rw [if_pos h1]
    exact h
  · rw [if_neg h1]
    by_cases h2 : MAX_GROUPS ≤ groups.length
    · rw [if_pos h2]
      exact h
    · rw [if_neg h2]
      cases sd with
      | none => exact h
      | some sd =>
          obtain ⟨path, size, dest, prio⟩ := sd
          cases path with
          | nil => exact h
          | cons n0 rest =>
              cases rest with
              | nil => exact h
              | cons n1 rest2 =>
                  exact register_posInv groups nid _ rfl h

theorem tick_posInv (pow2 : ℚ → ℚ) (G : Graph) (sd : Option SpawnData)
    (s : SimState) (h : PosInv s.groups) :
    PosInv (simulation_step_runner pow2 G sd s).1.groups := by
  exact update_positions_posInv pow2 SIM_TIME_STEP_SECONDS G _ _
    (by norm_num [SIM_TIME_STEP_SECONDS])
    (spawn_posInv G sd s.groups (ensureEdgeKeys s.occ G) s.nextGroupId h)

theorem runSim_posInv (pow2 : ℚ → ℚ) (G : Graph)
    (spawns : List (Option SpawnData)) : PosInv (runSim pow2 G spawns).groups := by
  unfold runSim
  have main : ∀ (l : List (Option SpawnData)) (s : SimState), PosInv s.groups →
      PosInv ((l.foldl (fun s sd => (simulation_step_runner pow2 G sd s).1) s).groups) := by
    intro l
    induction l with
    | nil => exact fun s h => h
    | cons sd t ih => exact fun s h => ih _ (tick_posInv pow2 G sd s h)
  refine main spawns (initState G) ?_
  intro p hp
  exact absurd hp (List.not_mem_nil p)

/-- C5: in every state reachable by the tick loop from the freshly loaded
state, each live group's `pos_on_edge` lies in the half-open interval
`[0, 1)`: groups spawn at position 0, a positive travel time keeps the
in-tick increment nonnegative, and a tick that would reach or pass 1 removes
the group or moves it to the next edge with its position reset to 0 rather
than leaving a position at or above 1. -/
theorem C5_position_bounds (pow2 : ℚ → ℚ) (G : Graph)
    (spawns : List (Option SpawnData)) :
    PosInv (runSim pow2 G spawns).groups :=
  runSim_posInv pow2 G spawns

/-! ### Claim C9 -/

theorem update_positions_stasis (pow2 : ℚ → ℚ) (dt : ℚ) (G : Graph)
    (groups : Groups) (occ : Occupancy) (gid : ℕ) (g : Group)
    (hlook : alookup gid (posWrites (stepResults pow2 dt G groups occ)) = some g)
    (hnotrem : gid ∉ remIds (stepResults pow2 dt G groups occ))
    (hnotmov : ∀ m ∈ movEntries (stepResults pow2 dt G groups occ), m.1 ≠ gid) :
    alookup gid (update_group_positions_local pow2 dt G groups occ).1 = some g ∧
    ∀ e, gid ∈ occGet occ e →
      gid ∈ occGet (update_group_positions_local pow2 dt G groups occ).2.1 e := by
  constructor
  · show alookup gid ((movEntries (stepResults pow2 dt G groups occ)).foldl movStep
      ((remIds (stepResults pow2 dt G groups occ)).foldl remStep
        (posWrites (stepResults pow2 dt G groups occ), occ))).1 = some g
    rw [movFold_alookup_of_not_mem _ gid hnotmov,
      remFold_alookup_of_not_mem _ gid hnotrem]
    exact hlook
  · intro e hm
    show gid ∈ occGet ((movEntries (stepResults pow2 dt G groups occ)).foldl movStep
      ((remIds (stepResults pow2 dt G groups occ)).foldl remStep
        (posWrites (stepResults pow2 dt G groups occ), occ))).2 e
    exact movFold_occGet_mem _ gid e hnotmov _ (remFold_occGet_mem _ gid e hnotrem _ hm)

/-- C9: the per-tick position update is total on degenerate edges — for a
group whose current edge's dynamic travel time comes out infinite (`none`,
e.g. any edge with capacity ≤ 0) or non-positive, the tick's `continue`
leaves the group record (position, edge, everything) unchanged and its
occupancy registration in place, and the group is neither removed nor moved;
moreover capacity ≤ 0 forces the infinite travel time at every car count. -/
theorem C9_degenerate_edge_stasis (pow2 : ℚ → ℚ) (dt : ℚ) (G : Graph)
    (groups : Groups) (occ : Occupancy) (gid : ℕ) (g : Group) (ed : EdgeData)
    (hnd : (akeys groups).Nodup)
    (hg : alookup gid groups = some g)
    (hed : G.edgeData g.current_edge = some ed)
    (hdeg : calculate_dynamic_travel_time_local pow2 ed
        ((get_total_cars_on_edge_local g.current_edge occ groups : ℕ) : ℚ) = none ∨
      ∃ t, calculate_dynamic_travel_time_local pow2 ed
        ((get_total_cars_on_edge_local g.current_edge occ groups : ℕ) : ℚ) = some t ∧
        t ≤ 0) :
    alookup gid (update_group_positions_local pow2 dt G groups occ).1 = some g ∧
    (gid ∈ occGet occ g.current_edge →
      gid ∈ occGet (update_group_positions_local pow2 dt G groups occ).2.1
        g.current_edge) ∧
    (ed.capacity ≤ 0 → ∀ c : ℚ,
      calculate_dynamic_travel_time_local pow2 ed c = none) := by
  have hstay : groupStep pow2 dt G
      (get_total_cars_on_edge_local g.current_edge occ groups) g = .stay := by
    unfold groupStep
    split
    · next heq =>
        rw [hed] at heq
        exact absurd heq (by simp)
    · next ed' heq =>
        rw [hed] at heq
        injection heq with heq
        subst heq
        split
        · rfl
        · next t heq2 =>
            rcases hdeg with hnone | ⟨t', ht', htle⟩
            · rw [heq2] at hnone
              exact absurd hnone (by simp)
            · rw [heq2] at ht'
              injection ht' with ht'
              subst ht'
              rw [if_pos htle]
  have hds : decideStep pow2 dt G occ groups (gid, g) = StepRes.stay := hstay
  have hmem : (gid, g) ∈ groups := alookup_eq_some_mem hg
  have hrmem : (gid, g, StepRes.stay) ∈ stepResults pow2 dt G groups occ := by
    have h2 := @stepResults_mem_of_mem pow2 dt G groups occ (gid, g) hmem
    rw [hds] at h2
    exact h2
  have hpw : (gid, g) ∈ posWrites (stepResults pow2 dt G groups occ) :=
    posWrites_mem_of_mem hrmem
  have hndpw : (akeys (posWrites (stepResults pow2 dt G groups occ))).Nodup := by
    rw [posWrites_keys, stepResults_keys]
    exact hnd
  have hlook : alookup gid (posWrites (stepResults pow2 dt G groups occ)) = some g :=
    mem_alookup_of_nodup hndpw hpw
  have hnotrem : gid ∉ remIds (stepResults pow2 dt G groups occ) := by
    intro hc
    rcases mem_remIds hc with ⟨r, hr, hrid, hcase⟩
    obtain ⟨hrmem2, hdec⟩ := mem_stepResults hr
    have hval : alookup gid groups = some r.2.1 := by
      refine mem_alookup_of_nodup hnd ?_
      rw [← hrid]
      exact hrmem2
    rw [hg] at hval
    injection hval with hval
    have hthis : r.2.2 = StepRes.stay := by
      rw [hdec, hrid, ← hval]
      exact hds
    rcases hcase with h5 | ⟨n, h5⟩ <;> rw [h5] at hthis <;>
      exact StepRes.noConfusion hthis
  have hnotmov : ∀ m ∈ movEntries (stepResults pow2 dt G groups occ), m.1 ≠ gid := by
    intro m hm hc
    rcases mem_movEntries hm with ⟨r, hr, hrid, _, hcase⟩
    obtain ⟨hrmem2, hdec⟩ := mem_stepResults hr
    have hval : alookup gid groups = some r.2.1 := by
      refine mem_alookup_of_nodup hnd ?_
      rw [← hc, ← hrid]
      exact hrmem2
    rw [hg] at hval
    injection hval with hval
    have hthis : r.2.2 = StepRes.stay := by
      rw [hdec, hrid, hc, ← hval]
      exact hds
    rw [hcase] at hthis
    exact StepRes.noConfusion hthis
  obtain ⟨h1, h2⟩ := update_positions_stasis pow2 dt G groups occ gid g
    hlook hnotrem hnotmov
  refine ⟨h1, h2 g.current_edge, ?_⟩
  intro hcap c
  unfold calculate_dynamic_travel_time_local
  rw [if_pos hcap]

/-- The concrete degenerate edge for the C9 witness: capacity 0. -/
def C9ed : EdgeData := ⟨60, 0, 1⟩

/-- A two-node graph whose single edge is the degenerate one. -/
def C9G : Graph := ⟨[0, 1], [((0, 1), C9ed)]⟩

/-- A group sitting on the degenerate edge. -/
def C9g : Group := ⟨1, (0, 1), 0, [0, 1], 1, 0, false⟩

theorem C9_degenerate_edge_stasis_witness :
    alookup 0 (update_group_positions_local (fun _ => 1) 2 C9G
      [(0, C9g)] [((0, 1), [0])]).1 = some C9g ∧
    0 ∈ occGet (update_group_positions_local (fun _ => 1) 2 C9G
      [(0, C9g)] [((0, 1), [0])]).2.1 C9g.current_edge := by
  have h := C9_degenerate_edge_stasis (fun _ => 1) 2 C9G [(0, C9g)] [((0, 1), [0])]
    0 C9g C9ed (by decide) rfl rfl (Or.inl rfl)
  exact ⟨h.1, h.2.1 (by decide)⟩
